import Mathlib

set_option maxHeartbeats 1000000

/-! # Shallow embedding of the dotenv `.env` parser

This file models `src/core/parser.rs` of the `dotenv-space` CLI: the line
scanner (`parse_content` loop), key splitting and validation, the value
decoder (`parse_value`, `unescape_double`) and the variable-expansion
resolver (`expand_all`, `expand_value`).  Rust `String`s are modelled as
`List Char` (matching `str::chars()` iteration); the `HashMap` of variables
is modelled as an association list with insertion-order iteration and
replace-on-insert, which refines the unordered map.  Rust's bounded
recursion (`depth` checked against `max_expansion_depth` on entry) is
rendered with an equivalent decreasing fuel `max_expansion_depth + 1 - depth`.
-/

/-- Newline character. -/
def nlc : Char := Char.ofNat 10

/-- Carriage-return character. -/
def crc : Char := Char.ofNat 13

/-- Tab character. -/
def tabc : Char := Char.ofNat 9

/-- Backslash character. -/
def bslc : Char := Char.ofNat 92

/-- Double-quote character. -/
def dqc : Char := Char.ofNat 34

/-- Single-quote character. -/
def sqc : Char := Char.ofNat 39

/-- Backtick character. -/
def btc : Char := Char.ofNat 96

/-- Opening brace character. -/
def lbc : Char := Char.ofNat 123

/-- Closing brace character. -/
def rbc : Char := Char.ofNat 125

/-- Whitespace test used by Rust `trim`/`trim_start`/`trim_end`
(ASCII fragment of Unicode `White_Space`, which covers every input in scope). -/
def isWsChar (c : Char) : Bool := c.isWhitespace

/-- Rust `str::trim_start`. -/
def trimStart (l : List Char) : List Char := l.dropWhile isWsChar

/-- Rust `str::trim_end`. -/
def trimEnd (l : List Char) : List Char := (l.reverse.dropWhile isWsChar).reverse

/-- Rust `str::trim`. -/
def trimBoth (l : List Char) : List Char := trimEnd (trimStart l)

/-- Split a character list at every newline; the result always has one more
segment than there are newlines (so it is never empty). -/
def splitNl : List Char → List (List Char)
  | [] => [[]]
  | c :: rest =>
    match splitNl rest with
    | [] => [[]]
    | l :: ls => if c = nlc then [] :: l :: ls else (c :: l) :: ls

/-- Strip one trailing carriage return (the `\r` of a `\r\n` line ending). -/
def stripCR1 (l : List Char) : List Char :=
  if l.getLast? = some crc then l.dropLast else l

/-- Rust `str::lines()`: split on `\n`, strip a `\r` left before each `\n`,
and drop a final empty segment (a trailing line terminator is optional). -/
def rustLines (cs : List Char) : List (List Char) :=
  let ls := splitNl cs
  (ls.dropLast.map stripCR1) ++
    (match ls.getLast? with
      | some [] => []
      | some lst => [lst]
      | none => [])

/-- Decidable equality for `Except` results, so concrete parses can be
settled by `decide`. -/
instance exceptDecEq {e a : Type} [DecidableEq e] [DecidableEq a] :
    DecidableEq (Except e a) := fun x y =>
  match x, y with
  | .ok v, .ok w =>
    if h : v = w then .isTrue (by rw [h])
    else .isFalse (fun hh => h (Except.ok.inj hh))
  | .error v, .error w =>
    if h : v = w then .isTrue (by rw [h])
    else .isFalse (fun hh => h (Except.error.inj hh))
  | .ok _, .error _ => .isFalse (fun hh => Except.noConfusion hh)
  | .error _, .ok _ => .isFalse (fun hh => Except.noConfusion hh)

/-- The error enum `ParseError` of `parser.rs`. -/
inductive ParseError where
  | FileReadError : ParseError
  | InvalidFormat (line : Nat) (message : List Char) : ParseError
  | InvalidKey (line : Nat) (key : List Char) : ParseError
  | UndefinedVariable (line : Nat) (var : List Char) : ParseError
  | CircularExpansion (line : Nat) (cycle : List Char) : ParseError
  | UnterminatedString (line : Nat) : ParseError
  | ExpansionDepthExceeded (line : Nat) (max : Nat) : ParseError
  deriving DecidableEq

/-- The configuration struct `ParserConfig` of `parser.rs`. -/
structure ParserConfig where
  allow_expansion : Bool
  strict : Bool
  max_expansion_depth : Nat
  allow_inline_comments : Bool
  trim_values : Bool
  allow_multiline : Bool
  deriving DecidableEq

/-- `ParserConfig::default()`. -/
def defaultConfig : ParserConfig :=
  { allow_expansion := true
    strict := false
    max_expansion_depth := 10
    allow_inline_comments := true
    trim_values := true
    allow_multiline := true }

/-- The variable map (`HashMap<String, String>`), modelled as an association
list kept free of duplicate keys by `insertVar`. -/
abbrev Vars := List (List Char × List Char)

/-- `HashMap::insert`: overwrite the binding if the key exists, else add it. -/
def insertVar : Vars → List Char → List Char → Vars
  | [], k, v => [(k, v)]
  | (k0, v0) :: rest, k, v =>
    if k0 = k then (k, v) :: rest else (k0, v0) :: insertVar rest k v

/-- `HashMap::get`. -/
def lookupVar : Vars → List Char → Option (List Char)
  | [], _ => none
  | (k0, v0) :: rest, k => if k0 = k then some v0 else lookupVar rest k

/-- `Parser::split_key_value`: strip an optional leading `export`, then split
at the first `=`; its absence is an `InvalidFormat` error. -/
def split_key_value (line : List Char) (lineNum : Nat) :
    Except ParseError (List Char × List Char) :=
  let l := if "export".data.isPrefixOf line then trimStart (line.drop 6) else line
  if l.contains '=' then
    .ok (trimBoth (l.takeWhile (fun c => c ≠ '=')),
         (l.dropWhile (fun c => c ≠ '=')).drop 1)
  else
    .error (.InvalidFormat lineNum
      ("missing ".data ++ [sqc, '=', sqc] ++ " separator".data))

/-- `Parser::validate_key`: non-empty, ASCII letter first, ASCII alphanumeric
or underscore afterwards, and all-uppercase when `strict` is set. -/
def validate_key (cfg : ParserConfig) (key : List Char) (lineNum : Nat) :
    Except ParseError Unit :=
  match key with
  | [] => .error (.InvalidKey lineNum [])
  | c :: rest =>
    if ¬ c.isAlpha then .error (.InvalidKey lineNum (c :: rest))
    else if ¬ rest.all (fun x => x.isAlphanum || x = '_') then
      .error (.InvalidKey lineNum (c :: rest))
    else if cfg.strict ∧ (c :: rest) ≠ (c :: rest).map Char.toUpper then
      .error (.InvalidKey lineNum (c :: rest))
    else .ok ()

/-- `Parser::classify_quote`: the first non-whitespace character when it is a
double quote, single quote or backtick. -/
def classify_quote (raw : List Char) : Option Char :=
  match trimStart raw with
  | c :: _ => if c = dqc ∨ c = sqc ∨ c = btc then some c else none
  | [] => none

/-- `Parser::is_closed_quote`: trimmed span of length at least two that starts
and ends with the quote character. -/
def is_closed_quote (raw : List Char) (q : Char) : Bool :=
  let t := trimBoth raw
  decide (2 ≤ t.length) && (t.head? == some q) && (t.getLast? == some q)

/-- `Parser::unescape_double`: backslash escapes inside a double-quoted value. -/
def unescape_double : List Char → List Char
  | [] => []
  | c :: cs =>
    if c = bslc then
      match cs with
      | [] => [bslc]
      | e :: cs' =>
        if e = 'n' then nlc :: unescape_double cs'
        else if e = 'r' then crc :: unescape_double cs'
        else if e = 't' then tabc :: unescape_double cs'
        else if e = bslc then bslc :: unescape_double cs'
        else if e = dqc then dqc :: unescape_double cs'
        else if e = sqc then sqc :: unescape_double cs'
        else bslc :: e :: unescape_double cs'
    else c :: unescape_double cs

/-- `Parser::parse_value`: dispatch on the first character after stripping
leading whitespace — double-quoted (unescaped), single/backtick-quoted
(literal), or unquoted (comment-stripped and trimmed). -/
def parse_value (cfg : ParserConfig) (raw0 : List Char) (lineNum : Nat) :
    Except ParseError (List Char) :=
  match trimStart raw0 with
  | [] => .ok []
  | first :: rest =>
    let raw := first :: rest
    if first = dqc then
      if raw.getLast? ≠ some dqc ∨ raw.length < 2 then
        .error (.UnterminatedString lineNum)
      else .ok (unescape_double (raw.drop 1).dropLast)
    else if first = sqc ∨ first = btc then
      if raw.getLast? ≠ some first ∨ raw.length < 2 then
        .error (.UnterminatedString lineNum)
      else .ok ((raw.drop 1).dropLast)
    else
      let val :=
        if cfg.allow_inline_comments then
          if raw.contains '#' then trimEnd (raw.takeWhile (fun c => c ≠ '#'))
          else trimEnd raw
        else trimEnd raw
      if cfg.trim_values then .ok (trimBoth val) else .ok val

/-- Identifier characters of a bare `$NAME` reference
(`is_ascii_alphanumeric` or underscore). -/
def isIdentChar (c : Char) : Bool := c.isAlphanum || c = '_'

/-- The cycle-path message of a `CircularExpansion` error
(`stack.join(" → ") → name`). -/
def cycleStr (stack : List (List Char)) (name : List Char) : List Char :=
  (List.intercalate " → ".data stack) ++ " → ".data ++ name

/-- `dropWhile` never lengthens a list (termination helper). -/
theorem lengthDropWhileLe (p : Char → Bool) (l : List Char) :
    (l.dropWhile p).length ≤ l.length := by
  induction l with
  | nil => simp
  | cons a l ih =>
    by_cases h : p a
    · simp [List.dropWhile_cons, h]
      omega
    · simp [List.dropWhile_cons, h]

/-- The character-scanning loop of `Parser::expand_value`, written with an
explicit gas counter (the loop variant: the remaining character count, so
each step is structurally decreasing).  The gas is initialised to the length
of the scanned text and never runs out; the gas-exhausted branch is dead
code kept only to make the recursion structural.  Rust's
`Iterator::take_while` consumes its terminator, which is mirrored by the
`drop 1` after `dropWhile`.  `sub` is the recursive expansion of a
referenced variable's value at the next depth. -/
def scanGo (cfg : ParserConfig) (vars : Vars)
    (sub : List (List Char) → List Char → Except ParseError (List Char))
    (stack : List (List Char)) (lineHint : Nat) :
    Nat → List Char → Except ParseError (List Char)
  | _, [] => .ok []
  | 0, _ :: _ => .ok []
  | g + 1, c :: cs =>
    if c = '$' then
      match cs with
      | [] => .ok ['$']
      | d :: rest =>
        if d = lbc then
          let name := rest.takeWhile (fun x => x ≠ rbc)
          let rest3 := (rest.dropWhile (fun x => x ≠ rbc)).drop 1
          if stack.contains name then
            .error (.CircularExpansion lineHint (cycleStr stack name))
          else
            match lookupVar vars name with
            | some v => do
              let e ← sub (stack ++ [name]) v
              let r ← scanGo cfg vars sub stack lineHint g rest3
              .ok (e ++ r)
            | none => .error (.UndefinedVariable lineHint name)
        else if isIdentChar d then
          let name := (d :: rest).takeWhile isIdentChar
          let rest3 := ((d :: rest).dropWhile isIdentChar).drop 1
          if stack.contains name then
            .error (.CircularExpansion lineHint (cycleStr stack name))
          else
            match lookupVar vars name with
            | some v => do
              let e ← sub (stack ++ [name]) v
              let r ← scanGo cfg vars sub stack lineHint g rest3
              .ok (e ++ r)
            | none => do
              let r ← scanGo cfg vars sub stack lineHint g rest3
              .ok ('$' :: name ++ r)
        else do
          let r ← scanGo cfg vars sub stack lineHint g (d :: rest)
          .ok ('$' :: r)
    else do
      let r ← scanGo cfg vars sub stack lineHint g cs
      .ok (c :: r)

/-- `Parser::expand_value`: Rust checks `depth > max_expansion_depth` at
entry and recurses at `depth + 1`; the fuel here equals
`max_expansion_depth + 1 - depth`, so fuel `0` is exactly the
depth-exceeded case and a referenced variable's value is expanded with one
unit of fuel less. -/
def expand_value (cfg : ParserConfig) (vars : Vars) :
    Nat → List (List Char) → Nat → List Char → Except ParseError (List Char)
  | 0, _, lineHint, _ =>
    .error (.ExpansionDepthExceeded lineHint cfg.max_expansion_depth)
  | f + 1, stack, lineHint, value =>
    scanGo cfg vars (fun st v => expand_value cfg vars f st lineHint v)
      stack lineHint value.length value

/-- The per-key loop of `Parser::expand_all`: iterate the snapshot of keys,
expanding each key's value against the original map with a fresh stack,
depth `0` and line hint `0`. -/
def expandKeys (cfg : ParserConfig) (vars : Vars) :
    List (List Char) → Except ParseError Vars
  | [] => .ok []
  | k :: ks => do
    let v := (lookupVar vars k).getD []
    let r ← expand_value cfg vars (cfg.max_expansion_depth + 1) [] 0 v
    let rest ← expandKeys cfg vars ks
    .ok ((k, r) :: rest)

/-- `Parser::expand_all`. -/
def expand_all (cfg : ParserConfig) (vars : Vars) : Except ParseError Vars :=
  expandKeys cfg vars (vars.map Prod.fst)

/-- The mutable loop state of `Parser::parse_content`. -/
structure ScanState where
  vars : Vars
  mlKey : Option (List Char)
  mlValue : List Char
  mlQuote : Char
  mlStart : Nat
  deriving DecidableEq

/-- The state at loop entry. -/
def initState : ScanState :=
  { vars := [], mlKey := none, mlValue := [], mlQuote := dqc, mlStart := 0 }

/-- One iteration of the `parse_content` line loop. -/
def scanLine (cfg : ParserConfig) (st : ScanState) (lineNum : Nat)
    (rawLine : List Char) : Except ParseError ScanState :=
  match st.mlKey with
  | some key =>
    let trimmedEnd := trimEnd rawLine
    if trimmedEnd.getLast? = some st.mlQuote then
      .ok { st with
            vars := insertVar st.vars key (st.mlValue ++ nlc :: trimmedEnd.dropLast)
            mlKey := none
            mlValue := [] }
    else
      .ok { st with mlValue := st.mlValue ++ nlc :: rawLine }
  | none =>
    let line := trimBoth rawLine
    if line = [] ∨ line.head? = some '#' then .ok st
    else do
      let kv ← split_key_value line lineNum
      let _ ← validate_key cfg kv.1 lineNum
      match classify_quote kv.2 with
      | some q =>
        if cfg.allow_multiline ∧ ¬ is_closed_quote kv.2 q then
          .ok { st with
                mlKey := some kv.1
                mlValue := kv.2.dropWhile (fun c => c = q)
                mlQuote := q
                mlStart := lineNum }
        else do
          let v ← parse_value cfg kv.2 lineNum
          .ok { st with vars := insertVar st.vars kv.1 v }
      | none => do
        let v ← parse_value cfg kv.2 lineNum
        .ok { st with vars := insertVar st.vars kv.1 v }

/-- The full (1-indexed) line loop of `parse_content`. -/
def scanLines (cfg : ParserConfig) :
    ScanState → Nat → List (List Char) → Except ParseError ScanState
  | st, _, [] => .ok st
  | st, n, l :: ls => do
    let st' ← scanLine cfg st n l
    scanLines cfg st' (n + 1) ls

/-- `Parser::parse_content`: run the line loop, fail on an unterminated
multi-line block, then run the expansion pass when enabled. -/
def parse_content (cfg : ParserConfig) (content : List Char) :
    Except ParseError Vars := do
  let st ← scanLines cfg initState 1 (rustLines content)
  match st.mlKey with
  | some _ => .error (.UnterminatedString st.mlStart)
  | none =>
    if cfg.allow_expansion then expand_all cfg st.vars else .ok st.vars

/-- Join segments with a leading newline each (the accumulation shape of the
multi-line loop). -/
def joinNl : List (List Char) → List Char
  | [] => []
  | m :: ms => nlc :: m ++ joinNl ms

/-- Reassemble segments separated by newlines (left inverse of `splitNl`). -/
def joinNlAll : List (List Char) → List Char
  | [] => []
  | a :: rest => a ++ joinNl rest

/-- No trailing whitespace (the last character, if any, is not whitespace). -/
def noTrailWs (l : List Char) : Bool :=
  match l.getLast? with
  | some c => !isWsChar c
  | none => true

/-- The `line` payload of each error variant (`0` for `FileReadError`,
which carries none). -/
def errLine : ParseError → Nat
  | .FileReadError => 0
  | .InvalidFormat l _ => l
  | .InvalidKey l _ => l
  | .UndefinedVariable l _ => l
  | .CircularExpansion l _ => l
  | .UnterminatedString l => l
  | .ExpansionDepthExceeded l _ => l

/-- Error kinds that only the expansion pass produces. -/
def isExpErr : ParseError → Bool
  | .UndefinedVariable _ _ => true
  | .CircularExpansion _ _ => true
  | .ExpansionDepthExceeded _ _ => true
  | _ => false

/-- Error kinds that only the line-scan pass produces. -/
def isScanErr : ParseError → Bool
  | .InvalidFormat _ _ => true
  | .InvalidKey _ _ => true
  | .UnterminatedString _ => true
  | _ => false

/-- Boolean form of the key grammar `[A-Za-z][A-Za-z0-9_]*` (no strict-mode
case check). -/
def validKeyBool (key : List Char) : Bool :=
  match key with
  | [] => false
  | c :: rest => c.isAlpha && rest.all (fun x => x.isAlphanum || x = '_')

/-- Modelled from the spec wording of the key-validation rule, for comparison
with `validate_key`: non-empty, starts with an ASCII letter, ASCII
alphanumerics and underscore thereafter, and in strict mode the key equals
its own uppercased form. -/
def specKeyAccept (cfg : ParserConfig) (key : List Char) : Prop :=
  key ≠ [] ∧
  (∀ h, key.head? = some h → h.isAlpha = true) ∧
  (∀ c ∈ key.tail, (c.isAlphanum || c = '_') = true) ∧
  (cfg.strict = true → key = key.map Char.toUpper)

/-- The value texts of the linear reference chain `V0=x`, `V1=${V0}`, …. -/
def chainVal (name : Nat → List Char) : Nat → List Char
  | 0 => "x".data
  | k + 1 => '$' :: lbc :: name k ++ [rbc]

/-- The decoded variable map of the linear chain. -/
def chainVars (name : Nat → List Char) (n : Nat) : Vars :=
  (List.range (n + 1)).map (fun k => (name k, chainVal name k))

/-- The source text of the linear chain, one assignment per line. -/
def chainContent (name : Nat → List Char) (n : Nat) : List Char :=
  joinNlAll ((List.range (n + 1)).map (fun k => name k ++ '=' :: chainVal name k))

/-- A concrete three-name family for instantiating the chain. -/
def chainNames (i : Nat) : List Char :=
  ["V0".data, "V1".data, "V2".data].getD i "X0".data

/-- Append a suffix to the last segment of a non-empty segment list. -/
def snocLast (a : List Char) : List (List Char) → List (List Char)
  | [] => [a]
  | [l] => [l ++ a]
  | l :: ls => l :: snocLast a ls

/-! ## Character-class and trimming lemmas -/

/-- Characters agreeing with a test differ from characters failing it. -/
theorem ne_of_testBool {p : Char → Bool} {c x : Char}
    (h : p c = true) (hx : p x = false) : c ≠ x := by
  intro e
  rw [e, hx] at h
  cases h

/-- Key characters (alphanumeric or underscore) are not whitespace. -/
theorem alnum_not_ws {c : Char} (h : (c.isAlphanum || c = '_') = true) :
    isWsChar c = false := by
  cases hw : isWsChar c with
  | false => rfl
  | true =>
    exfalso
    have hws : c.isWhitespace = true := hw
    simp only [Char.isWhitespace, Bool.or_eq_true, decide_eq_true_eq] at hws
    rcases hws with ((rfl | rfl) | rfl) | rfl <;> revert h <;> decide

/-- An ASCII letter is alphanumeric. -/
theorem alpha_alnum {c : Char} (h : c.isAlpha = true) :
    (c.isAlphanum || c = '_') = true := by
  simp [Char.isAlphanum, h]

/-- `trim_start` keeps a list whose head is not whitespace. -/
theorem trimStart_cons_not_ws {c : Char} (l : List Char)
    (h : isWsChar c = false) : trimStart (c :: l) = c :: l := by
  simp [trimStart, List.dropWhile_cons, h]

/-- `trim_end` of a list with no trailing whitespace is itself. -/
theorem trimEnd_eq_self {l : List Char} (h : noTrailWs l = true) :
    trimEnd l = l := by
  unfold noTrailWs at h
  match hl : l.getLast? with
  | none =>
    have : l = [] := by
      cases l with
      | nil => rfl
      | cons a l => simp [List.getLast?_cons] at hl
    simp [this, trimEnd]
  | some c =>
    rw [hl] at h
    simp at h
    obtain ⟨l', rfl⟩ : ∃ l', l = l' ++ [c] := by
      have := List.dropLast_append_getLast? c hl
      exact ⟨l.dropLast, this.symm⟩
    simp [trimEnd, List.dropWhile_cons, h]

/-- `noTrailWs` after appending a non-whitespace character. -/
theorem noTrailWs_concat {c : Char} (l : List Char)
    (h : isWsChar c = false) : noTrailWs (l ++ [c]) = true := by
  simp [noTrailWs, List.getLast?_append, h]

/-- `noTrailWs` is inherited from a non-empty tail part. -/
theorem noTrailWs_append_right {a b : List Char} (hb : b ≠ [])
    (h : noTrailWs b = true) : noTrailWs (a ++ b) = true := by
  unfold noTrailWs at h ⊢
  rw [List.getLast?_append_of_ne_nil a hb]
  exact h

/-- `trim_end` distributes over append when the left part has no trailing
whitespace. -/
theorem trimEnd_append {a : List Char} (b : List Char)
    (h : noTrailWs a = true) : trimEnd (a ++ b) = a ++ trimEnd b := by
  unfold trimEnd
  rw [List.reverse_append, List.dropWhile_append]
  by_cases he : (b.reverse.dropWhile isWsChar).isEmpty
  · rw [if_pos he, List.isEmpty_iff.mp he]
    simp
    have := trimEnd_eq_self h
    unfold trimEnd at this
    exact this
  · rw [if_neg he]
    simp

/-- Membership in `trimEnd` implies membership. -/
theorem mem_of_mem_trimEnd {c : Char} {l : List Char}
    (h : c ∈ trimEnd l) : c ∈ l := by
  unfold trimEnd at h
  rw [List.mem_reverse] at h
  have := List.dropWhile_sublist (l := l.reverse) (p := isWsChar)
  have h2 := this.mem h
  rw [List.mem_reverse] at h2
  exact h2

/-! ## Line-splitting lemmas -/

/-- `splitNl` never returns the empty list. -/
theorem splitNl_ne_nil (l : List Char) : splitNl l ≠ [] := by
  cases l with
  | nil => simp [splitNl]
  | cons c rest =>
    unfold splitNl
    match splitNl rest with
    | [] => simp
    | m :: ms =>
      by_cases h : c = nlc <;> simp [h]

/-- Splitting a newline-free list yields that single segment. -/
theorem splitNl_no_nl {l : List Char} (h : nlc ∉ l) : splitNl l = [l] := by
  induction l with
  | nil => rfl
  | cons c rest ih =>
    have hc : c ≠ nlc := fun e => h (e ▸ List.mem_cons_self c rest)
    have hr : nlc ∉ rest := fun m => h (List.mem_cons_of_mem c m)
    unfold splitNl
    rw [ih hr]
    simp [hc]

/-- Unfolding equation of `splitNl` at a cons cell. -/
theorem splitNl_cons (c : Char) (rest : List Char) :
    splitNl (c :: rest) =
      match splitNl rest with
      | [] => [[]]
      | l :: ls => if c = nlc then [] :: l :: ls else (c :: l) :: ls := by
  conv_lhs => rw [splitNl]

/-- `splitNl` at a leading newline. -/
theorem splitNl_cons_nl (rest : List Char) :
    splitNl (nlc :: rest) = [] :: splitNl rest := by
  rw [splitNl_cons]
  match hr : splitNl rest with
  | [] => exact absurd hr (splitNl_ne_nil rest)
  | m :: ms => simp

/-- `splitNl` at a leading non-newline character. -/
theorem splitNl_cons_not_nl {c : Char} (rest : List Char) (h : c ≠ nlc)
    {m : List Char} {ms : List (List Char)} (hr : splitNl rest = m :: ms) :
    splitNl (c :: rest) = (c :: m) :: ms := by
  rw [splitNl_cons, hr]
  simp [h]

/-- The head segment of a split is always present. -/
theorem splitNl_dest (rest : List Char) :
    ∃ m ms, splitNl rest = m :: ms := by
  match hr : splitNl rest with
  | [] => exact absurd hr (splitNl_ne_nil rest)
  | m :: ms => exact ⟨m, ms, rfl⟩

/-- Splitting at an explicit first newline. -/
theorem splitNl_append_nl {a : List Char} (b : List Char) (h : nlc ∉ a) :
    splitNl (a ++ nlc :: b) = a :: splitNl b := by
  induction a with
  | nil => simpa using splitNl_cons_nl b
  | cons c rest ih =>
    have hc : c ≠ nlc := fun e => h (e ▸ List.mem_cons_self c rest)
    have hr : nlc ∉ rest := fun m => h (List.mem_cons_of_mem c m)
    have hr2 : splitNl (rest ++ nlc :: b) = rest :: splitNl b := ih hr
    simpa using splitNl_cons_not_nl (rest ++ nlc :: b) hc hr2

/-- Characters of a segment come from the split list. -/
theorem mem_of_mem_splitNl {c : Char} {seg l : List Char}
    (hs : seg ∈ splitNl l) (hc : c ∈ seg) : c ∈ l := by
  induction l generalizing seg with
  | nil =>
    simp [splitNl] at hs
    subst hs
    cases hc
  | cons d rest ih =>
    obtain ⟨m, ms, hr⟩ := splitNl_dest rest
    by_cases hd : d = nlc
    · subst hd
      rw [splitNl_cons_nl] at hs
      rcases List.mem_cons.mp hs with rfl | hs2
      · cases hc
      · exact List.mem_cons_of_mem nlc (ih hs2 hc)
    · rw [splitNl_cons_not_nl rest hd hr] at hs
      rcases List.mem_cons.mp hs with rfl | hs2
      · rcases List.mem_cons.mp hc with rfl | hc2
        · exact List.mem_cons_self c rest
        · have hm : m ∈ splitNl rest := by rw [hr]; exact List.mem_cons_self m ms
          exact List.mem_cons_of_mem d (ih hm hc2)
      · have hm : seg ∈ splitNl rest := by rw [hr]; exact List.mem_cons_of_mem m hs2
        exact List.mem_cons_of_mem d (ih hm hc)

/-- Segments of a split contain no newline. -/
theorem nl_not_mem_splitNl {seg l : List Char} (hs : seg ∈ splitNl l) :
    nlc ∉ seg := by
  induction l generalizing seg with
  | nil =>
    simp [splitNl] at hs
    subst hs
    simp
  | cons d rest ih =>
    obtain ⟨m, ms, hr⟩ := splitNl_dest rest
    by_cases hd : d = nlc
    · subst hd
      rw [splitNl_cons_nl] at hs
      rcases List.mem_cons.mp hs with rfl | hs2
      · simp
      · exact ih hs2
    · rw [splitNl_cons_not_nl rest hd hr] at hs
      rcases List.mem_cons.mp hs with rfl | hs2
      · intro hmem
        rcases List.mem_cons.mp hmem with e | hm
        · exact hd e.symm
        · have hmm : m ∈ splitNl rest := by rw [hr]; exact List.mem_cons_self m ms
          exact ih hmm hm
      · have hmm : seg ∈ splitNl rest := by rw [hr]; exact List.mem_cons_of_mem m hs2
        exact ih hmm

/-- `joinNl` of a non-empty segment list. -/
theorem joinNl_eq (ls : List (List Char)) (h : ls ≠ []) :
    joinNl ls = nlc :: joinNlAll ls := by
  cases ls with
  | nil => exact absurd rfl h
  | cons a rest => simp [joinNl, joinNlAll]

/-- Reassembling a split recovers the original list. -/
theorem joinNlAll_splitNl (l : List Char) : joinNlAll (splitNl l) = l := by
  induction l with
  | nil => rfl
  | cons c rest ih =>
    obtain ⟨m, ms, hr⟩ := splitNl_dest rest
    by_cases hc : c = nlc
    · subst hc
      rw [splitNl_cons_nl]
      show [] ++ joinNl (splitNl rest) = nlc :: rest
      rw [List.nil_append, joinNl_eq _ (splitNl_ne_nil rest), ih]
    · rw [splitNl_cons_not_nl rest hc hr]
      show (c :: m) ++ joinNl ms = c :: rest
      rw [hr] at ih
      show c :: (m ++ joinNl ms) = c :: rest
      have : joinNlAll (m :: ms) = m ++ joinNl ms := rfl
      rw [← this, ih]

/-- Splitting a reassembled list of newline-free segments recovers them. -/
theorem splitNl_joinNlAll {ls : List (List Char)} (h : ∀ m ∈ ls, nlc ∉ m)
    (hne : ls ≠ []) : splitNl (joinNlAll ls) = ls := by
  induction ls with
  | nil => exact absurd rfl hne
  | cons a rest ih =>
    cases rest with
    | nil =>
      show splitNl (a ++ joinNl []) = [a]
      simp [joinNl]
      exact splitNl_no_nl (h a (List.mem_cons_self a []))
    | cons b rest2 =>
      have ha : nlc ∉ a := h a (List.mem_cons_self a _)
      have hr : ∀ m ∈ b :: rest2, nlc ∉ m := fun m hm => h m (List.mem_cons_of_mem a hm)
      have he : joinNlAll (a :: b :: rest2) = a ++ nlc :: joinNlAll (b :: rest2) := by
        simp [joinNlAll, joinNl]
      rw [he, splitNl_append_nl _ ha, ih hr (by simp)]

/-! ## rustLines lemmas -/

/-- An element reported by `getLast?` is a member. -/
theorem mem_of_getLast? {l : List Char} {c : Char} (h : l.getLast? = some c) :
    c ∈ l := by
  obtain ⟨hne, he⟩ := List.mem_getLast?_eq_getLast (x := c) (by rw [h]; rfl)
  rw [he]
  exact List.getLast_mem hne

/-- `stripCR1` on a list not ending in a carriage return. -/
theorem stripCR1_eq {l : List Char} (h : l.getLast? ≠ some crc) :
    stripCR1 l = l := by
  simp [stripCR1, h]

/-- `stripCR1` on a list without carriage returns. -/
theorem stripCR1_eq_of_not_mem {l : List Char} (h : crc ∉ l) :
    stripCR1 l = l :=
  stripCR1_eq (fun e => h (mem_of_getLast? e))

/-- `rustLines` of a single newline-free, non-empty line. -/
theorem rustLines_single {l : List Char} (h : nlc ∉ l) (hne : l ≠ []) :
    rustLines l = [l] := by
  unfold rustLines
  rw [splitNl_no_nl h]
  cases l with
  | nil => exact absurd rfl hne
  | cons c rest => simp

/-- `rustLines` in terms of `splitNl` when the final segment is non-empty. -/
theorem rustLines_eq_of_last {content lst : List Char}
    {ms : List (List Char)}
    (hl : splitNl content = ms ++ [lst]) (hne : lst ≠ []) :
    rustLines content = ms.map stripCR1 ++ [lst] := by
  unfold rustLines
  rw [hl]
  cases lst with
  | nil => exact absurd rfl hne
  | cons c rest => simp

/-- `splitNl` commutes with appending a newline-free suffix via `snocLast`. -/
theorem splitNl_append_right {a : List Char} (b : List Char) (h : nlc ∉ a) :
    splitNl (b ++ a) = snocLast a (splitNl b) := by
  induction b with
  | nil =>
    rw [List.nil_append, splitNl_no_nl h]
    rfl
  | cons c b' ih =>
    obtain ⟨m, ms, hr⟩ := splitNl_dest b'
    rw [hr] at ih
    by_cases hc : c = nlc
    · subst hc
      rw [List.cons_append, splitNl_cons_nl, splitNl_cons_nl, ih, hr]
      cases ms <;> rfl
    · obtain ⟨m2, ms2, hr2⟩ := splitNl_dest (b' ++ a)
      rw [List.cons_append, splitNl_cons_not_nl _ hc hr2,
          splitNl_cons_not_nl _ hc hr]
      rw [hr2] at ih
      cases ms with
      | nil =>
        have hsl : snocLast a [m] = [m ++ a] := rfl
        rw [hsl] at ih
        have hm2 : m2 = m ++ a := (List.cons.inj ih).1
        have hms2 : ms2 = [] := (List.cons.inj ih).2
        subst hm2; subst hms2
        rfl
      | cons m3 ms3 =>
        have hsl : snocLast a (m :: m3 :: ms3) = m :: snocLast a (m3 :: ms3) := rfl
        rw [hsl] at ih
        have hm2 : m2 = m := (List.cons.inj ih).1
        have hms2 : ms2 = snocLast a (m3 :: ms3) := (List.cons.inj ih).2
        subst hm2
        rw [hms2]
        rfl

/-- `snocLast` on an explicit last element. -/
theorem snocLast_concat (a lst : List Char) (ms : List (List Char)) :
    snocLast a (ms ++ [lst]) = ms ++ [lst ++ a] := by
  induction ms with
  | nil => rfl
  | cons m ms' ih =>
    cases ms' with
    | nil => rfl
    | cons m2 ms2 =>
      show m :: snocLast a ((m2 :: ms2) ++ [lst]) = m :: ((m2 :: ms2) ++ [lst ++ a])
      rw [ih]

/-! ## Scan-line helper lemmas -/

/-- `takeWhile` passes over a prefix that satisfies the predicate. -/
theorem takeWhile_append_all {p : Char → Bool} {a : List Char} (b : List Char)
    (h : ∀ c ∈ a, p c = true) : (a ++ b).takeWhile p = a ++ b.takeWhile p := by
  induction a with
  | nil => rfl
  | cons c rest ih =>
    have hc : p c = true := h c (List.mem_cons_self c rest)
    have hr : ∀ x ∈ rest, p x = true := fun x hx => h x (List.mem_cons_of_mem c hx)
    simp [List.takeWhile_cons, hc, ih hr]

/-- `dropWhile` consumes a prefix that satisfies the predicate. -/
theorem dropWhile_append_all {p : Char → Bool} {a : List Char} (b : List Char)
    (h : ∀ c ∈ a, p c = true) : (a ++ b).dropWhile p = b.dropWhile p := by
  induction a with
  | nil => rfl
  | cons c rest ih =>
    have hc : p c = true := h c (List.mem_cons_self c rest)
    have hr : ∀ x ∈ rest, p x = true := fun x hx => h x (List.mem_cons_of_mem c hx)
    simp [List.dropWhile_cons, hc, ih hr]

/-- `dropWhile (· = q)` is the identity when `q` does not occur. -/
theorem dropWhile_eq_self_of_not_mem {q : Char} {l : List Char} (h : q ∉ l) :
    l.dropWhile (fun c => c = q) = l := by
  cases l with
  | nil => rfl
  | cons c rest =>
    have : c ≠ q := fun e => h (e ▸ List.mem_cons_self c rest)
    simp [List.dropWhile_cons, this]

/-- Every character of a valid key is alphanumeric or underscore. -/
theorem validKey_chars {k : List Char} (h : validKeyBool k = true) :
    ∀ c ∈ k, (c.isAlphanum || c = '_') = true := by
  match k with
  | [] => cases h
  | c0 :: rest =>
    simp only [validKeyBool, Bool.and_eq_true, List.all_eq_true] at h
    intro c hc
    rcases List.mem_cons.mp hc with rfl | hm
    · exact alpha_alnum h.1
    · exact h.2 c hm

/-- A list of non-whitespace characters has no trailing whitespace. -/
theorem noTrailWs_of_chars {k : List Char}
    (h : ∀ c ∈ k, isWsChar c = false) : noTrailWs k = true := by
  unfold noTrailWs
  match hl : k.getLast? with
  | none => rfl
  | some c => simp [h c (mem_of_getLast? hl)]

/-- `contains` is `false` for a non-member. -/
theorem contains_eq_false_of_not_mem {x : Char} {l : List Char} (h : x ∉ l) :
    l.contains x = false := by
  simpa using h

/-- `contains` is `true` for a member. -/
theorem contains_eq_true_of_mem {x : Char} {l : List Char} (h : x ∈ l) :
    l.contains x = true := by
  simpa using h

/-! ## Scan-line evaluation lemmas -/

theorem noTrailWs_cons {c : Char} {l : List Char} (h : l ≠ []) :
    noTrailWs (c :: l) = noTrailWs l := by
  unfold noTrailWs
  cases l with
  | nil => exact absurd rfl h
  | cons a rest => rw [List.getLast?_cons_cons]

theorem trimStart_eq_self_of_head {l : List Char} {c : Char}
    (h : l.head? = some c) (hc : isWsChar c = false) : trimStart l = l := by
  cases l with
  | nil => rfl
  | cons a rest =>
    have : a = c := by simpa using h
    subst this
    exact trimStart_cons_not_ws rest hc

theorem exceptBindOk {α β : Type} (a : α) (f : α → Except ParseError β) :
    (Except.ok a >>= f) = f a := rfl

theorem exceptBindErr {α β : Type} (e : ParseError) (f : α → Except ParseError β) :
    ((Except.error e : Except ParseError α) >>= f) = Except.error e := rfl

theorem validate_KEY (cfg : ParserConfig) (n : Nat) :
    validate_key cfg "KEY".data n = .ok () := by
  simp [validate_key]

theorem scanLine_open (cfg : ParserConfig) (vars : Vars)
    (mlv0 : List Char) (mlq0 : Char) (mls0 n : Nat) (q : Char) (seg0 : List Char)
    (hq : q = dqc ∨ q = sqc) (hseg : q ∉ seg0) (htrail : noTrailWs seg0 = true)
    (hml : cfg.allow_multiline = true) :
    scanLine cfg ⟨vars, none, mlv0, mlq0, mls0⟩ n ("KEY=".data ++ q :: seg0)
      = .ok ⟨vars, some "KEY".data, seg0, q, n⟩ := by
  have hqws : isWsChar q = false := by rcases hq with rfl | rfl <;> decide
  have hqnl : (q = dqc ∨ q = sqc ∨ q = btc) := by rcases hq with rfl | rfl <;> simp
  have hnt : noTrailWs ("KEY=".data ++ q :: seg0) = true := by
    cases seg0 with
    | nil => exact noTrailWs_concat _ hqws
    | cons s0 r0 =>
      refine noTrailWs_append_right (by simp) ?_
      rw [noTrailWs_cons (by simp)]
      exact htrail
  have htrim : trimBoth ("KEY=".data ++ q :: seg0) = "KEY=".data ++ q :: seg0 := by
    unfold trimBoth
    rw [trimStart_eq_self_of_head
      (show ("KEY=".data ++ q :: seg0).head? = some 'K' from rfl)
      (by decide : isWsChar 'K' = false)]
    exact trimEnd_eq_self hnt
  have hsplit : split_key_value ("KEY=".data ++ q :: seg0) n
      = .ok ("KEY".data, q :: seg0) := by
    unfold split_key_value
    have hpre : ("export".data.isPrefixOf ("KEY=".data ++ q :: seg0)) = false := rfl
    rw [hpre]
    simp only [Bool.false_eq_true, if_false]
    have hco : ("KEY=".data ++ q :: seg0).contains '=' = true :=
      contains_eq_true_of_mem (by simp)
    rw [hco]
    simp only [if_true]
    have htw : ("KEY=".data ++ q :: seg0).takeWhile (fun c => c ≠ '=') = "KEY".data := by
      have e : ("KEY=".data ++ q :: seg0) = "KEY".data ++ '=' :: (q :: seg0) := rfl
      rw [e, takeWhile_append_all _ (by decide)]
      simp
    have hdw : (("KEY=".data ++ q :: seg0).dropWhile (fun c => c ≠ '=')).drop 1
        = q :: seg0 := by
      have e : ("KEY=".data ++ q :: seg0) = "KEY".data ++ '=' :: (q :: seg0) := rfl
      rw [e, dropWhile_append_all _ (by decide)]
      simp
    rw [htw, hdw]
    have e2 : trimBoth "KEY".data = "KEY".data := by decide
    rw [e2]
  have hclass : classify_quote (q :: seg0) = some q := by
    unfold classify_quote
    rw [trimStart_cons_not_ws _ hqws]
    simp [hqnl]
  have hclosed : is_closed_quote (q :: seg0) q = false := by
    simp only [is_closed_quote]
    cases seg0 with
    | nil =>
      have e : trimBoth [q] = [q] := by
        unfold trimBoth
        rw [trimStart_cons_not_ws _ hqws]
        exact trimEnd_eq_self (noTrailWs_of_chars (by simp [hqws]))
      rw [e]
      simp
    | cons s0 r0 =>
      have hnt2 : noTrailWs (q :: s0 :: r0) = true := by
        rw [noTrailWs_cons (by simp)]
        exact htrail
      have e : trimBoth (q :: s0 :: r0) = q :: s0 :: r0 := by
        unfold trimBoth
        rw [trimStart_cons_not_ws _ hqws]
        exact trimEnd_eq_self hnt2
      rw [e]
      obtain ⟨c, hc⟩ : ∃ c, (s0 :: r0).getLast? = some c := by
        cases hgl : (s0 :: r0).getLast? with
        | none => simp [List.getLast?_cons] at hgl
        | some c => exact ⟨c, rfl⟩
      have hcm : c ∈ s0 :: r0 := mem_of_getLast? hc
      have hcq : (some c == some q) = false := by
        have : c ≠ q := fun e => hseg (e ▸ hcm)
        simp [this]
      rw [List.getLast?_cons_cons, hc, hcq]
      simp
  have hdrop : (q :: seg0).dropWhile (fun c => c = q) = seg0 := by
    rw [List.dropWhile_cons]
    simp only [decide_True, if_true]
    exact dropWhile_eq_self_of_not_mem hseg
  show scanLine cfg ⟨vars, none, mlv0, mlq0, mls0⟩ n ("KEY=".data ++ q :: seg0) = _
  unfold scanLine
  simp only [htrim, hsplit, hclass, hclosed, hml, exceptBindOk,
    validate_KEY, hdrop]
  rw [if_neg (by simp)]
  rw [if_pos (by simp)]
  rw [show validate_key cfg ['K', 'E', 'Y'] n = Except.ok () from validate_KEY cfg n]
  rfl

theorem scanLine_ml (cfg : ParserConfig) (vars : Vars) (key mlv : List Char)
    (q : Char) (mls n : Nat) (rawLine : List Char) :
    scanLine cfg ⟨vars, some key, mlv, q, mls⟩ n rawLine =
      (if (trimEnd rawLine).getLast? = some q then
        .ok ⟨insertVar vars key (mlv ++ nlc :: (trimEnd rawLine).dropLast), none, [], q, mls⟩
      else .ok ⟨vars, some key, mlv ++ nlc :: rawLine, q, mls⟩) := rfl

theorem scan_ml_run (cfg : ParserConfig) (vars : Vars) (key mlv : List Char)
    (q : Char) (mls : Nat) (mids : List (List Char)) (lst : List Char) (n : Nat)
    (hqws : isWsChar q = false)
    (hmids : ∀ m ∈ mids, q ∉ m) :
    scanLines cfg ⟨vars, some key, mlv, q, mls⟩ n (mids ++ [lst ++ [q]])
      = .ok ⟨insertVar vars key (mlv ++ joinNl (mids ++ [lst])), none, [], q, mls⟩ := by
  induction mids generalizing mlv n with
  | nil =>
    simp only [List.nil_append]
    unfold scanLines
    have h1 : trimEnd (lst ++ [q]) = lst ++ [q] :=
      trimEnd_eq_self (noTrailWs_concat _ hqws)
    rw [scanLine_ml, h1]
    rw [if_pos (by rw [List.getLast?_concat])]
    rw [exceptBindOk]
    unfold scanLines
    simp [joinNl, List.dropLast_concat]
  | cons m mids' ih =>
    have hm : q ∉ m := hmids m (List.mem_cons_self m mids')
    have hmids' : ∀ x ∈ mids', q ∉ x := fun x hx => hmids x (List.mem_cons_of_mem m hx)
    show scanLines cfg _ n ((m :: mids') ++ [lst ++ [q]]) = _
    rw [List.cons_append]
    unfold scanLines
    rw [scanLine_ml]
    rw [if_neg (by
      intro e
      exact hm (mem_of_mem_trimEnd (mem_of_getLast? e)))]
    rw [exceptBindOk]
    rw [ih (mlv ++ nlc :: m) (n + 1) hmids']
    simp [joinNl]

theorem scanLine_single_quoted (cfg : ParserConfig) (vars : Vars)
    (mlv0 : List Char) (mlq0 : Char) (mls0 n : Nat) (s : List Char) :
    scanLine cfg ⟨vars, none, mlv0, mlq0, mls0⟩ n ("KEY=".data ++ sqc :: (s ++ [sqc]))
      = .ok ⟨insertVar vars "KEY".data s, none, mlv0, mlq0, mls0⟩ := by
  have hnt : noTrailWs ("KEY=".data ++ sqc :: (s ++ [sqc])) = true := by
    rw [show "KEY=".data ++ sqc :: (s ++ [sqc])
        = ("KEY=".data ++ sqc :: s) ++ [sqc] by simp]
    exact noTrailWs_concat _ (by decide)
  have htrim : trimBoth ("KEY=".data ++ sqc :: (s ++ [sqc]))
      = "KEY=".data ++ sqc :: (s ++ [sqc]) := by
    unfold trimBoth
    rw [trimStart_eq_self_of_head
      (show ("KEY=".data ++ sqc :: (s ++ [sqc])).head? = some 'K' from rfl)
      (by decide : isWsChar 'K' = false)]
    exact trimEnd_eq_self hnt
  have hsplit : split_key_value ("KEY=".data ++ sqc :: (s ++ [sqc])) n
      = .ok ("KEY".data, sqc :: (s ++ [sqc])) := by
    unfold split_key_value
    have hpre : ("export".data.isPrefixOf ("KEY=".data ++ sqc :: (s ++ [sqc]))) = false := rfl
    rw [hpre]
    simp only [Bool.false_eq_true, if_false]
    have hco : ("KEY=".data ++ sqc :: (s ++ [sqc])).contains '=' = true :=
      contains_eq_true_of_mem (by simp)
    rw [hco]
    simp only [if_true]
    have htw : ("KEY=".data ++ sqc :: (s ++ [sqc])).takeWhile (fun c => c ≠ '=')
        = "KEY".data := by
      have e : ("KEY=".data ++ sqc :: (s ++ [sqc]))
          = "KEY".data ++ '=' :: (sqc :: (s ++ [sqc])) := rfl
      rw [e, takeWhile_append_all _ (by decide)]
      simp
    have hdw : (("KEY=".data ++ sqc :: (s ++ [sqc])).dropWhile (fun c => c ≠ '=')).drop 1
        = sqc :: (s ++ [sqc]) := by
      have e : ("KEY=".data ++ sqc :: (s ++ [sqc]))
          = "KEY".data ++ '=' :: (sqc :: (s ++ [sqc])) := rfl
      rw [e, dropWhile_append_all _ (by decide)]
      simp
    rw [htw, hdw]
    have e2 : trimBoth "KEY".data = "KEY".data := by decide
    rw [e2]
  have hlast : (sqc :: (s ++ [sqc])).getLast? = some sqc := by
    rw [show sqc :: (s ++ [sqc]) = (sqc :: s) ++ [sqc] by simp, List.getLast?_concat]
  have hclass : classify_quote (sqc :: (s ++ [sqc])) = some sqc := by
    unfold classify_quote
    rw [trimStart_cons_not_ws _ (by decide : isWsChar sqc = false)]
    simp
  have htb : trimBoth (sqc :: (s ++ [sqc])) = sqc :: (s ++ [sqc]) := by
    unfold trimBoth
    rw [trimStart_cons_not_ws _ (by decide : isWsChar sqc = false)]
    refine trimEnd_eq_self ?_
    rw [show sqc :: (s ++ [sqc]) = (sqc :: s) ++ [sqc] by simp]
    exact noTrailWs_concat _ (by decide)
  have hclosed : is_closed_quote (sqc :: (s ++ [sqc])) sqc = true := by
    simp only [is_closed_quote]
    rw [htb]
    simp only [List.head?_cons, hlast]
    simp
  have hpv : parse_value cfg (sqc :: (s ++ [sqc])) n = .ok s := by
    unfold parse_value
    rw [trimStart_cons_not_ws _ (by decide : isWsChar sqc = false)]
    simp only []
    rw [if_neg (by decide : ¬ sqc = dqc)]
    rw [if_pos (show True ∨ sqc = btc from Or.inl trivial)]
    rw [if_neg (by
      rw [hlast]
      simp)]
    simp
  show scanLine cfg ⟨vars, none, mlv0, mlq0, mls0⟩ n ("KEY=".data ++ sqc :: (s ++ [sqc])) = _
  unfold scanLine
  simp only [htrim, hsplit, hclass, hclosed, exceptBindOk]
  rw [if_neg (by simp)]
  rw [if_neg (fun h => h.2 trivial)]
  rw [show validate_key cfg ['K', 'E', 'Y'] n = Except.ok () from validate_KEY cfg n]
  rw [exceptBindOk]
  rw [show parse_value cfg (sqc :: (s ++ [sqc])) n = Except.ok s from hpv]
  rfl

/-! ## Expansion no-op lemmas -/

theorem scanGo_noDollar (cfg : ParserConfig) (vars : Vars)
    (sub : List (List Char) → List Char → Except ParseError (List Char))
    (stack : List (List Char)) (lineHint : Nat) :
    ∀ g cs, '$' ∉ cs → cs.length ≤ g →
      scanGo cfg vars sub stack lineHint g cs = .ok cs := by
  intro g
  induction g with
  | zero =>
    intro cs hd hl
    cases cs with
    | nil => rfl
    | cons c rest => simp at hl
  | succ g ih =>
    intro cs hd hl
    cases cs with
    | nil => rfl
    | cons c rest =>
      have hc : ¬ c = '$' := fun e => hd (e ▸ List.mem_cons_self c rest)
      have hr : '$' ∉ rest := fun m => hd (List.mem_cons_of_mem c m)
      unfold scanGo
      rw [if_neg hc]
      rw [ih rest hr (by simpa using hl)]
      rfl

theorem expand_value_noDollar (cfg : ParserConfig) (vars : Vars) (f : Nat)
    (stack : List (List Char)) (lineHint : Nat) (v : List Char)
    (hd : '$' ∉ v) :
    expand_value cfg vars (f + 1) stack lineHint v = .ok v := by
  unfold expand_value
  exact scanGo_noDollar cfg vars _ stack lineHint v.length v hd le_rfl

theorem expandKeys_noDollar (cfg : ParserConfig) (vars : Vars) :
    ∀ ks, (∀ k ∈ ks, '$' ∉ (lookupVar vars k).getD []) →
      expandKeys cfg vars ks
        = .ok (ks.map fun k => (k, (lookupVar vars k).getD [])) := by
  intro ks
  induction ks with
  | nil => intro _; rfl
  | cons k rest ih =>
    intro h
    have hk : '$' ∉ (lookupVar vars k).getD [] := h k (List.mem_cons_self k rest)
    have hr := ih (fun x hx => h x (List.mem_cons_of_mem k hx))
    simp only [expandKeys]
    rw [expand_value_noDollar cfg vars cfg.max_expansion_depth [] 0 _ hk]
    rw [exceptBindOk, hr, exceptBindOk]
    rw [List.map_cons]

theorem expand_all_single (cfg : ParserConfig) (k v : List Char)
    (hd : '$' ∉ v) : expand_all cfg [(k, v)] = .ok [(k, v)] := by
  unfold expand_all
  have hl : lookupVar [(k, v)] k = some v := by
    unfold lookupVar
    rw [if_pos rfl]
  have e : List.map Prod.fst [(k, v)] = [k] := rfl
  rw [e]
  rw [expandKeys_noDollar cfg [(k, v)] [k] (by
    intro x hx
    rcases List.mem_cons.mp hx with rfl | hx2
    · rw [hl]; exact hd
    · cases hx2)]
  simp [hl]

theorem map_id_of_eq {f : List Char → List Char} {l : List (List Char)}
    (h : ∀ x ∈ l, f x = x) : l.map f = l := by
  induction l with
  | nil => rfl
  | cons a rest ih =>
    rw [List.map_cons, h a (List.mem_cons_self a rest),
      ih (fun x hx => h x (List.mem_cons_of_mem a hx))]

theorem parse_single_line_quoted (s : List Char) (hnl : nlc ∉ s)
    (hdol : '$' ∉ s) :
    parse_content defaultConfig ("KEY=".data ++ sqc :: (s ++ [sqc]))
      = .ok [("KEY".data, s)] := by
  have hnlc : nlc ∉ ("KEY=".data ++ sqc :: (s ++ [sqc])) := by
    intro h
    rcases List.mem_append.mp h with h1 | h2
    · exact absurd h1 (by decide)
    · rcases List.mem_cons.mp h2 with e | h3
      · exact absurd e (by decide)
      · rcases List.mem_append.mp h3 with h4 | h5
        · exact hnl h4
        · exact absurd (List.mem_singleton.mp h5) (by decide)
  have hrl : rustLines ("KEY=".data ++ sqc :: (s ++ [sqc]))
      = [("KEY=".data ++ sqc :: (s ++ [sqc]))] :=
    rustLines_single hnlc (by simp)
  unfold parse_content
  rw [hrl]
  unfold scanLines
  rw [show initState = (⟨[], none, [], dqc, 0⟩ : ScanState) from rfl]
  rw [scanLine_single_quoted defaultConfig [] [] dqc 0 1 s]
  rw [exceptBindOk]
  unfold scanLines
  rw [exceptBindOk]
  show expand_all defaultConfig [("KEY".data, s)] = _
  exact expand_all_single defaultConfig "KEY".data s hdol

theorem parse_quoted_multiline (q : Char) (s : List Char)
    (hq : q = dqc ∨ q = sqc) (hnl : nlc ∈ s) (hqn : q ∉ s) (hdol : '$' ∉ s)
    (hcr : crc ∉ s)
    (htr : noTrailWs (s.takeWhile (fun c => c ≠ nlc)) = true) :
    parse_content defaultConfig ("KEY=".data ++ q :: (s ++ [q]))
      = .ok [("KEY".data, s)] := by
  have hqws : isWsChar q = false := by rcases hq with rfl | rfl <;> decide
  have hqnl : q ≠ nlc := by rcases hq with rfl | rfl <;> decide
  have hqcr : q ≠ crc := by rcases hq with rfl | rfl <;> decide
  -- decompose s at its first newline
  obtain ⟨srest, hsplit_s⟩ : ∃ srest,
      s = s.takeWhile (fun c => c ≠ nlc) ++ nlc :: srest := by
    have hsum := List.takeWhile_append_dropWhile
      (p := fun c => decide (c ≠ nlc)) (l := s)
    cases hdr : s.dropWhile (fun c => decide (c ≠ nlc)) with
    | nil =>
      exfalso
      have htkeq : s.takeWhile (fun c => decide (c ≠ nlc)) = s := by
        conv_rhs => rw [← hsum, hdr, List.append_nil]
      have hs2 : nlc ∈ s.takeWhile (fun c => decide (c ≠ nlc)) := by
        rw [htkeq]; exact hnl
      have hmem := List.mem_takeWhile_imp hs2
      simp at hmem
    | cons d rest =>
      have hd : ¬ (d ≠ nlc) := by
        have := List.head?_dropWhile_not (fun c => decide (c ≠ nlc)) s
        rw [hdr] at this
        simpa using this
      push_neg at hd
      exact ⟨rest, by conv_lhs => rw [← hsum, hdr, hd]⟩
  set seg0 := s.takeWhile (fun c => c ≠ nlc) with hseg0def
  have hseg0nl : nlc ∉ seg0 := by
    intro hm
    have := List.mem_takeWhile_imp hm
    simp at this
  have hseg0q : q ∉ seg0 := fun hm => hqn (hsplit_s ▸ List.mem_append_left _ hm)
  have hsrest_sub : ∀ c, c ∈ srest → c ∈ s := by
    intro c hc
    rw [hsplit_s]
    exact List.mem_append_right _ (List.mem_cons_of_mem nlc hc)
  have hsrest_q : q ∉ srest := fun hm => hqn (hsrest_sub q hm)
  have hsrest_cr : crc ∉ srest := fun hm => hcr (hsrest_sub crc hm)
  -- the physical lines of the content
  have hcontent : ("KEY=".data ++ q :: (s ++ [q]))
      = ("KEY=".data ++ q :: seg0) ++ nlc :: (srest ++ [q]) := by
    rw [hsplit_s]
    simp
  have hprenl : nlc ∉ ("KEY=".data ++ q :: seg0) := by
    intro h
    rcases List.mem_append.mp h with h1 | h2
    · exact absurd h1 (by decide)
    · rcases List.mem_cons.mp h2 with e | h3
      · exact hqnl e.symm
      · exact hseg0nl h3
  obtain ⟨lstseg, mids, hsegs⟩ : ∃ lstseg mids,
      splitNl srest = mids ++ [lstseg] := by
    have hne := splitNl_ne_nil srest
    exact ⟨(splitNl srest).getLast hne, (splitNl srest).dropLast,
      (List.dropLast_append_getLast hne).symm⟩
  have hsplit_content : splitNl ("KEY=".data ++ q :: (s ++ [q]))
      = (("KEY=".data ++ q :: seg0) :: mids) ++ [lstseg ++ [q]] := by
    rw [hcontent, splitNl_append_nl _ hprenl,
      splitNl_append_right srest ((by simpa using Ne.symm hqnl : nlc ∉ [q])),
      hsegs, snocLast_concat]
    rfl
  have hql : rustLines ("KEY=".data ++ q :: (s ++ [q]))
      = (("KEY=".data ++ q :: seg0) :: mids) ++ [lstseg ++ [q]] := by
    rw [rustLines_eq_of_last hsplit_content (by simp)]
    congr 1
    refine map_id_of_eq ?_
    intro x hx
    rcases List.mem_cons.mp hx with rfl | hxm
    · refine stripCR1_eq ?_
      intro hgl
      have := mem_of_getLast? hgl
      rcases List.mem_append.mp this with h1 | h2
      · exact absurd h1 (by decide)
      · rcases List.mem_cons.mp h2 with e | h3
        · exact hqcr e.symm
        · exact hcr (hsplit_s ▸ List.mem_append_left _ h3)
    · refine stripCR1_eq_of_not_mem ?_
      intro hm
      have hxm2 : x ∈ splitNl srest := by
        rw [hsegs]
        exact List.mem_append_left _ hxm
      exact hsrest_cr (mem_of_mem_splitNl hxm2 hm)
  -- run the scanner
  have hmids_q : ∀ m ∈ mids, q ∉ m := by
    intro m hm hqm
    have hm2 : m ∈ splitNl srest := by
      rw [hsegs]
      exact List.mem_append_left _ hm
    exact hsrest_q (mem_of_mem_splitNl hm2 hqm)
  have hvalue : seg0 ++ joinNl (mids ++ [lstseg]) = s := by
    rw [← hsegs, joinNl_eq _ (splitNl_ne_nil srest), joinNlAll_splitNl,
      hsplit_s]
  unfold parse_content
  rw [hql]
  rw [List.cons_append]
  unfold scanLines
  rw [show initState = (⟨[], none, [], dqc, 0⟩ : ScanState) from rfl]
  rw [scanLine_open defaultConfig [] [] dqc 0 1 q seg0 hq hseg0q htr rfl]
  rw [exceptBindOk]
  rw [scan_ml_run defaultConfig [] "KEY".data seg0 q 1 mids lstseg 2 hqws hmids_q]
  rw [exceptBindOk]
  rw [hvalue]
  show expand_all defaultConfig [("KEY".data, s)] = _
  exact expand_all_single defaultConfig "KEY".data s hdol

/-! ## Claims C1 and C2 -/

/-- C1 counterexample: the two-line input `K="a\nb` / `c"` (a multi-line
double-quoted value containing the escape sequence backslash-n) parses to the
raw, still-escaped text, which differs from its unescaped form — refuting the
claim that multi-line double-quoted values are unescaped like single-line
ones. -/
theorem claim_C1_counterexample :
    parse_content defaultConfig
        ("K=".data ++ dqc :: "a".data ++ bslc :: "nb".data ++ nlc :: "c".data ++ [dqc])
      = .ok [("K".data, "a".data ++ bslc :: "nb".data ++ nlc :: "c".data)] ∧
    unescape_double ("a".data ++ bslc :: "nb".data ++ nlc :: "c".data)
      ≠ "a".data ++ bslc :: "nb".data ++ nlc :: "c".data := by
  constructor <;> decide

/-- C1 (amended): a multi-line double-quoted value is returned raw — the
accumulated lines joined by newline with the quotes stripped and only
expansion applied; backslash escape sequences are NOT unescaped.  Formally:
for any text `s` that spans lines (contains a newline), has no double quote,
no `$`, no carriage return, and no trailing whitespace on its first line,
`KEY="s"` parses to the value exactly `s`. -/
theorem claim_C1 (s : List Char) (hnl : nlc ∈ s) (h1 : dqc ∉ s)
    (h2 : '$' ∉ s) (h3 : crc ∉ s)
    (h4 : noTrailWs (s.takeWhile (fun c => c ≠ nlc)) = true) :
    parse_content defaultConfig ("KEY=".data ++ dqc :: (s ++ [dqc]))
      = .ok [("KEY".data, s)] :=
  parse_quoted_multiline dqc s (Or.inl rfl) hnl h1 h2 h3 h4

/-- C1 witness: the amended theorem at the concrete multi-line value
`p\n` (escaped) + newline + `q`. -/
theorem claim_C1_witness :
    parse_content defaultConfig
        ("KEY=".data ++ dqc :: ((['p', bslc, 'n', nlc, 'q']) ++ [dqc]))
      = .ok [("KEY".data, ['p', bslc, 'n', nlc, 'q'])] :=
  claim_C1 ['p', bslc, 'n', nlc, 'q'] (by decide) (by decide) (by decide)
    (by decide) (by decide)

/-- C2 counterexample: for `s = ${X}` (no single quote in `s`), parsing
`KEY='s'` under the default configuration does not succeed with value `s` —
it fails with an undefined-variable error, because expansion runs over
single-quoted values too. -/
theorem claim_C2_counterexample :
    parse_content defaultConfig
        ("KEY=".data ++ sqc :: '$' :: lbc :: 'X' :: rbc :: [sqc])
      = .error (.UndefinedVariable 0 "X".data) := by
  decide

/-- C2 (amended): for every string `s` containing no single quote and no `$`
(and, when `s` spans multiple lines, no carriage return and no trailing
whitespace on its first line), parsing `KEY='s'` under the default
configuration succeeds and maps `KEY` to exactly `s`, including any `#` or
leading/trailing whitespace characters in `s`. -/
theorem claim_C2 (s : List Char) (h1 : sqc ∉ s) (h2 : '$' ∉ s)
    (h3 : nlc ∈ s → (crc ∉ s ∧ noTrailWs (s.takeWhile (fun c => c ≠ nlc)) = true)) :
    parse_content defaultConfig ("KEY=".data ++ sqc :: (s ++ [sqc]))
      = .ok [("KEY".data, s)] := by
  by_cases hnl : nlc ∈ s
  · obtain ⟨hcr, htr⟩ := h3 hnl
    exact parse_quoted_multiline sqc s (Or.inr rfl) hnl h1 h2 hcr htr
  · exact parse_single_line_quoted s hnl h2

/-- C2 witness: the amended theorem at `s = " a#b "` — `#` and surrounding
whitespace are preserved inside single quotes. -/
theorem claim_C2_witness :
    parse_content defaultConfig ("KEY=".data ++ sqc :: (" a#b ".data ++ [sqc]))
      = .ok [("KEY".data, " a#b ".data)] :=
  claim_C2 " a#b ".data (by decide) (by decide)
    (fun h => absurd h (by decide))

/-! ## Claims C4, C5, C7 -/

/-- C4: under the default configuration, `KEY=$UNDEFINED` succeeds with the
literal value `$UNDEFINED`, while `KEY=${UNDEFINED}` fails with an
`UndefinedVariable` error naming `UNDEFINED` — the two reference syntaxes
diverge on the identical undefined condition. -/
theorem claim_C4 :
    parse_content defaultConfig "KEY=$UNDEFINED".data
      = .ok [("KEY".data, "$UNDEFINED".data)] ∧
    parse_content defaultConfig ("KEY=$".data ++ lbc :: "UNDEFINED".data ++ [rbc])
      = .error (.UndefinedVariable 0 "UNDEFINED".data) := by
  constructor <;> decide

/-- C5: parsing `A=${B}` and `B=${A}` under the default configuration
fails with a `CircularExpansion` error whose message contains the cycle
chain (`B → A → B` when `A` is expanded first); the expansion function is
total (fuel-bounded exactly like the Rust depth check), so it terminates. -/
theorem claim_C5 :
    parse_content defaultConfig
        ("A=$".data ++ lbc :: "B".data ++ rbc :: nlc :: "B=$".data ++ lbc :: "A".data ++ [rbc])
      = .error (.CircularExpansion 0 "B → A → B".data) := by
  decide

/-- C7 counterexample: with `trim_values` disabled, `KEY=  spaced` parses to
`spaced`, not `  spaced` — leading whitespace of an unquoted value is NOT
preserved, refuting the claim. -/
theorem claim_C7_counterexample :
    parse_content { defaultConfig with trim_values := false } "KEY=  spaced".data
      = .ok [("KEY".data, "spaced".data)] ∧
    "spaced".data ≠ "  spaced".data := by
  constructor <;> decide

/-- C7 (amended): `parse_value` strips leading whitespace unconditionally
(before quote classification), so prepending whitespace to a raw value never
changes the result under any configuration; with `trim_values` disabled,
`KEY=  spaced` therefore yields `spaced` (comment stripping and
trailing-whitespace removal still apply on the unquoted branch). -/
theorem claim_C7 :
    (∀ (cfg : ParserConfig) (ws raw : List Char) (n : Nat),
      (∀ c ∈ ws, isWsChar c = true) →
        parse_value cfg (ws ++ raw) n = parse_value cfg raw n) ∧
    parse_content { defaultConfig with trim_values := false } "KEY=  spaced".data
      = .ok [("KEY".data, "spaced".data)] := by
  constructor
  · intro cfg ws raw n h
    unfold parse_value
    rw [show trimStart (ws ++ raw) = trimStart raw from dropWhile_append_all raw h]
  · decide

/-- C7 witness: the whitespace-insensitivity part at two leading spaces. -/
theorem claim_C7_witness :
    parse_value defaultConfig "  spaced".data 1
      = parse_value defaultConfig "spaced".data 1 :=
  claim_C7.1 defaultConfig "  ".data "spaced".data 1 (by decide)

/-! ## Claim C8 -/

theorem parse_content_single_line_err (cfg : ParserConfig) (content : List Char)
    (e : ParseError) (hnl : nlc ∉ content) (hne : content ≠ [])
    (h : scanLine cfg initState 1 content = .error e) :
    parse_content cfg content = .error e := by
  unfold parse_content
  rw [rustLines_single hnl hne]
  unfold scanLines
  rw [h]
  rfl

theorem scan_invalid_1KEY (cfg : ParserConfig) :
    scanLine cfg initState 1 "1KEY=value".data
      = .error (.InvalidKey 1 "1KEY".data) := by
  unfold scanLine initState
  rw [show trimBoth "1KEY=value".data = "1KEY=value".data from by decide]
  rw [if_neg (by decide)]
  rw [show split_key_value "1KEY=value".data 1
    = .ok ("1KEY".data, "value".data) from by decide]
  rw [exceptBindOk]
  rw [show validate_key cfg "1KEY".data 1
    = .error (.InvalidKey 1 "1KEY".data) from by
      show validate_key cfg ('1' :: "KEY".data) 1 = _
      unfold validate_key
      simp only []
      rw [if_pos (by decide)]]
  rfl

theorem scan_invalid_MYdashKEY (cfg : ParserConfig) :
    scanLine cfg initState 1 "MY-KEY=value".data
      = .error (.InvalidKey 1 "MY-KEY".data) := by
  unfold scanLine initState
  rw [show trimBoth "MY-KEY=value".data = "MY-KEY=value".data from by decide]
  rw [if_neg (by decide)]
  rw [show split_key_value "MY-KEY=value".data 1
    = .ok ("MY-KEY".data, "value".data) from by decide]
  rw [exceptBindOk]
  rw [show validate_key cfg "MY-KEY".data 1
    = .error (.InvalidKey 1 "MY-KEY".data) from by
      show validate_key cfg ('M' :: "Y-KEY".data) 1 = _
      unfold validate_key
      simp only []
      rw [if_neg (by decide), if_pos (by decide)]]
  rfl

theorem scan_invalid_MYspaceKEY (cfg : ParserConfig) :
    scanLine cfg initState 1 "MY KEY=value".data
      = .error (.InvalidKey 1 "MY KEY".data) := by
  unfold scanLine initState
  rw [show trimBoth "MY KEY=value".data = "MY KEY=value".data from by decide]
  rw [if_neg (by decide)]
  rw [show split_key_value "MY KEY=value".data 1
    = .ok ("MY KEY".data, "value".data) from by decide]
  rw [exceptBindOk]
  rw [show validate_key cfg "MY KEY".data 1
    = .error (.InvalidKey 1 "MY KEY".data) from by
      show validate_key cfg ('M' :: "Y KEY".data) 1 = _
      unfold validate_key
      simp only []
      rw [if_neg (by decide), if_pos (by decide)]]
  rfl

theorem validate_key_iff (cfg : ParserConfig) (key : List Char) (n : Nat) :
    validate_key cfg key n = .ok () ↔ specKeyAccept cfg key := by
  cases key with
  | nil =>
    constructor
    · intro h
      cases h
    · intro h
      exact absurd rfl h.1
  | cons c rest =>
    unfold validate_key specKeyAccept
    simp only []
    by_cases h1 : c.isAlpha = true
    · rw [if_neg (not_not_intro h1)]
      by_cases h2 : (rest.all fun x => x.isAlphanum || x = '_') = true
      · rw [if_neg (not_not_intro h2)]
        by_cases h3 : cfg.strict = true ∧ (c :: rest) ≠ (c :: rest).map Char.toUpper
        · rw [if_pos h3]
          constructor
          · intro h
            cases h
          · intro h
            exact absurd (h.2.2.2 h3.1) h3.2
        · rw [if_neg h3]
          constructor
          · intro _
            refine ⟨by simp, ?_, ?_, ?_⟩
            · intro h hh
              simp at hh
              rw [← hh]
              exact h1
            · intro x hx
              exact List.all_eq_true.mp h2 x hx
            · intro hstrict
              by_contra hne
              exact h3 ⟨hstrict, hne⟩
          · intro _
            rfl
      · rw [if_pos h2]
        constructor
        · intro h
          cases h
        · intro h
          refine absurd ?_ h2
          exact List.all_eq_true.mpr (fun x hx => h.2.2.1 x hx)
    · rw [if_pos h1]
      constructor
      · intro h
        cases h
      · intro h
        exact absurd (h.2.1 c rfl) h1

/-- C8: key validation accepts exactly the keys that are non-empty, start
with an ASCII letter, and contain only ASCII alphanumerics and underscore
thereafter, plus (in strict mode) equality with the uppercased form; the
lines `1KEY=value`, `MY-KEY=value` and `MY KEY=value` fail with `InvalidKey`
under every configuration, and `MyKey=value` succeeds by default but fails
in strict mode. -/
theorem claim_C8 :
    (∀ (cfg : ParserConfig) (key : List Char) (n : Nat),
        validate_key cfg key n = .ok () ↔ specKeyAccept cfg key) ∧
    (∀ cfg : ParserConfig,
        parse_content cfg "1KEY=value".data = .error (.InvalidKey 1 "1KEY".data)) ∧
    (∀ cfg : ParserConfig,
        parse_content cfg "MY-KEY=value".data = .error (.InvalidKey 1 "MY-KEY".data)) ∧
    (∀ cfg : ParserConfig,
        parse_content cfg "MY KEY=value".data = .error (.InvalidKey 1 "MY KEY".data)) ∧
    parse_content defaultConfig "MyKey=value".data = .ok [("MyKey".data, "value".data)] ∧
    parse_content { defaultConfig with strict := true } "MyKey=value".data
      = .error (.InvalidKey 1 "MyKey".data) := by
  refine ⟨validate_key_iff, ?_, ?_, ?_, by decide, by decide⟩
  · intro cfg
    exact parse_content_single_line_err cfg _ _ (by decide) (by decide)
      (scan_invalid_1KEY cfg)
  · intro cfg
    exact parse_content_single_line_err cfg _ _ (by decide) (by decide)
      (scan_invalid_MYdashKEY cfg)
  · intro cfg
    exact parse_content_single_line_err cfg _ _ (by decide) (by decide)
      (scan_invalid_MYspaceKEY cfg)

/-- C8 witness: the characterization applied at the concrete key `ABC`. -/
theorem claim_C8_witness :
    validate_key defaultConfig "ABC".data 1 = .ok () := by
  refine (claim_C8.1 defaultConfig "ABC".data 1).mpr ⟨by simp, ?_, ?_, ?_⟩
  · intro h hh
    simp at hh
    rw [← hh]
    decide
  · intro c hc
    simp at hc
    rcases hc with rfl | rfl
    · decide
    · decide
  · intro hs
    exact absurd hs (by decide)

/-! ## Error-kind and error-line lemmas -/

theorem kinds_disjoint {e : ParseError} (h : isScanErr e = true) :
    isExpErr e = false := by
  cases e <;> first | rfl | cases h

theorem kinds_disjoint2 {e : ParseError} (h : isExpErr e = true) :
    isScanErr e = false := by
  cases e <;> first | rfl | cases h

theorem scanGo_err (cfg : ParserConfig) (vars : Vars)
    (sub : List (List Char) → List Char → Except ParseError (List Char))
    (stack : List (List Char)) (lineHint : Nat) (P : ParseError → Prop)
    (hsub : ∀ st v e, sub st v = .error e → P e)
    (hP1 : ∀ st nm, P (.CircularExpansion lineHint (cycleStr st nm)))
    (hP2 : ∀ nm, P (.UndefinedVariable lineHint nm)) :
    ∀ g cs e, scanGo cfg vars sub stack lineHint g cs = .error e → P e := by
  intro g
  induction g with
  | zero =>
    intro cs e h
    cases cs with
    | nil => cases h
    | cons c rest => cases h
  | succ g ih =>
    intro cs e h
    cases cs with
    | nil => cases h
    | cons c cs' =>
      rw [scanGo.eq_def] at h
      simp only [] at h
      by_cases hc : c = '$'
      · rw [if_pos hc] at h
        cases cs' with
        | nil =>
          simp only [] at h
          cases h
        | cons d rest =>
          simp only [] at h
          by_cases hd : d = lbc
          · rw [if_pos hd] at h
            by_cases hst : stack.contains (rest.takeWhile (fun x => x ≠ rbc))
            · rw [if_pos hst] at h
              exact (Except.error.inj h) ▸ hP1 stack _
            · rw [if_neg hst] at h
              cases hlk : lookupVar vars (rest.takeWhile (fun x => x ≠ rbc)) with
              | some v =>
                rw [hlk] at h; simp only [] at h
                cases hsr : sub (stack ++ [rest.takeWhile (fun x => x ≠ rbc)]) v with
                | error e1 =>
                  rw [hsr, exceptBindErr] at h
                  exact (Except.error.inj h) ▸ hsub _ _ _ hsr
                | ok r1 =>
                  rw [hsr, exceptBindOk] at h
                  cases hsc : scanGo cfg vars sub stack lineHint g
                      ((rest.dropWhile (fun x => x ≠ rbc)).drop 1) with
                  | error e2 =>
                    rw [hsc, exceptBindErr] at h
                    exact (Except.error.inj h) ▸ ih _ _ hsc
                  | ok r2 =>
                    rw [hsc, exceptBindOk] at h
                    cases h
              | none =>
                rw [hlk] at h; simp only [] at h
                exact (Except.error.inj h) ▸ hP2 _
          · rw [if_neg hd] at h
            by_cases hid : isIdentChar d = true
            · rw [if_pos hid] at h
              by_cases hst : stack.contains ((d :: rest).takeWhile isIdentChar)
              · rw [if_pos hst] at h
                exact (Except.error.inj h) ▸ hP1 stack _
              · rw [if_neg hst] at h
                cases hlk : lookupVar vars ((d :: rest).takeWhile isIdentChar) with
                | some v =>
                  rw [hlk] at h; simp only [] at h
                  cases hsr : sub (stack ++ [(d :: rest).takeWhile isIdentChar]) v with
                  | error e1 =>
                    rw [hsr, exceptBindErr] at h
                    exact (Except.error.inj h) ▸ hsub _ _ _ hsr
                  | ok r1 =>
                    rw [hsr, exceptBindOk] at h
                    cases hsc : scanGo cfg vars sub stack lineHint g
                        (((d :: rest).dropWhile isIdentChar).drop 1) with
                    | error e2 =>
                      rw [hsc, exceptBindErr] at h
                      exact (Except.error.inj h) ▸ ih _ _ hsc
                    | ok r2 =>
                      rw [hsc, exceptBindOk] at h
                      cases h
                | none =>
                  rw [hlk] at h; simp only [] at h
                  cases hsc : scanGo cfg vars sub stack lineHint g
                      (((d :: rest).dropWhile isIdentChar).drop 1) with
                  | error e2 =>
                    rw [hsc, exceptBindErr] at h
                    exact (Except.error.inj h) ▸ ih _ _ hsc
                  | ok r2 =>
                    rw [hsc, exceptBindOk] at h
                    cases h
            · rw [if_neg hid] at h
              cases hsc : scanGo cfg vars sub stack lineHint g (d :: rest) with
              | error e2 =>
                rw [hsc, exceptBindErr] at h
                exact (Except.error.inj h) ▸ ih _ _ hsc
              | ok r2 =>
                rw [hsc, exceptBindOk] at h
                cases h
      · rw [if_neg hc] at h
        cases hsc : scanGo cfg vars sub stack lineHint g cs' with
        | error e2 =>
          rw [hsc, exceptBindErr] at h
          exact (Except.error.inj h) ▸ ih _ _ hsc
        | ok r2 =>
          rw [hsc, exceptBindOk] at h
          cases h

theorem expand_value_err (cfg : ParserConfig) (vars : Vars) :
    ∀ (f : Nat) (stack : List (List Char)) (lineHint : Nat) (v : List Char)
      (e : ParseError),
      expand_value cfg vars f stack lineHint v = .error e →
      errLine e = lineHint ∧ isExpErr e = true := by
  intro f
  induction f with
  | zero =>
    intro stack lineHint v e h
    have he := Except.error.inj h
    rw [← he]
    exact ⟨rfl, rfl⟩
  | succ f ih =>
    intro stack lineHint v e h
    rw [expand_value] at h
    exact scanGo_err cfg vars _ stack lineHint
      (fun e => errLine e = lineHint ∧ isExpErr e = true)
      (fun st v e he => ih st lineHint v e he)
      (fun st nm => ⟨rfl, rfl⟩) (fun nm => ⟨rfl, rfl⟩) v.length v e h

theorem expandKeys_err (cfg : ParserConfig) (vars : Vars) :
    ∀ (ks : List (List Char)) (e : ParseError),
      expandKeys cfg vars ks = .error e → errLine e = 0 ∧ isExpErr e = true := by
  intro ks
  induction ks with
  | nil =>
    intro e h
    cases h
  | cons k rest ih =>
    intro e h
    simp only [expandKeys] at h
    cases hev : expand_value cfg vars (cfg.max_expansion_depth + 1) [] 0
        ((lookupVar vars k).getD []) with
    | error e1 =>
      rw [hev, exceptBindErr] at h
      exact (Except.error.inj h) ▸ expand_value_err cfg vars _ _ _ _ _ hev
    | ok r =>
      rw [hev, exceptBindOk] at h
      cases hrest : expandKeys cfg vars rest with
      | error e2 =>
        rw [hrest, exceptBindErr] at h
        exact (Except.error.inj h) ▸ ih _ hrest
      | ok m =>
        rw [hrest, exceptBindOk] at h
        cases h

theorem split_key_value_err {line : List Char} {n : Nat} {e : ParseError}
    (h : split_key_value line n = .error e) :
    e = .InvalidFormat n ("missing ".data ++ [sqc, '=', sqc] ++ " separator".data) := by
  unfold split_key_value at h
  simp only [] at h
  split at h <;>
    first
      | exact (Except.error.inj h).symm
      | cases h
      | (split at h <;>
          first
            | exact (Except.error.inj h).symm
            | cases h)

theorem validate_key_err {cfg : ParserConfig} {key : List Char} {n : Nat}
    {e : ParseError} (h : validate_key cfg key n = .error e) :
    ∃ k, e = .InvalidKey n k := by
  unfold validate_key at h
  split at h
  · exact ⟨[], (Except.error.inj h).symm⟩
  · split at h
    · exact ⟨_, (Except.error.inj h).symm⟩
    · split at h
      · exact ⟨_, (Except.error.inj h).symm⟩
      · split at h
        · exact ⟨_, (Except.error.inj h).symm⟩
        · cases h

theorem parse_value_err {cfg : ParserConfig} {raw : List Char} {n : Nat}
    {e : ParseError} (h : parse_value cfg raw n = .error e) :
    e = .UnterminatedString n := by
  unfold parse_value at h
  simp only [] at h
  split at h <;>
    first
      | exact (Except.error.inj h).symm
      | cases h
      | (split at h <;>
          first
            | exact (Except.error.inj h).symm
            | cases h
            | (split at h <;>
                first
                  | exact (Except.error.inj h).symm
                  | cases h
                  | (split at h <;>
                      first
                        | exact (Except.error.inj h).symm
                        | cases h)))

theorem scanLine_err {cfg : ParserConfig} {st : ScanState} {n : Nat}
    {line : List Char} {e : ParseError}
    (h : scanLine cfg st n line = .error e) :
    isScanErr e = true ∧ errLine e = n := by
  unfold scanLine at h
  cases hml : st.mlKey with
  | some k =>
    rw [hml] at h
    simp only [] at h
    split at h <;> cases h
  | none =>
    rw [hml] at h
    simp only [] at h
    split at h
    · cases h
    · cases hsp : split_key_value (trimBoth line) n with
      | error e1 =>
        rw [hsp, exceptBindErr] at h
        have hsh := split_key_value_err hsp
        have he := Except.error.inj h
        rw [← he, hsh]
        exact ⟨rfl, rfl⟩
      | ok kv =>
        rw [hsp, exceptBindOk] at h
        cases hv : validate_key cfg kv.1 n with
        | error e2 =>
          rw [hv, exceptBindErr] at h
          obtain ⟨k2, hk2⟩ := validate_key_err hv
          have he := Except.error.inj h
          rw [← he, hk2]
          exact ⟨rfl, rfl⟩
        | ok u =>
          rw [hv, exceptBindOk] at h
          cases hcq : classify_quote kv.2 with
          | some q =>
            rw [hcq] at h
            simp only [] at h
            split at h
            · cases h
            · cases hpv : parse_value cfg kv.2 n with
              | error e3 =>
                rw [hpv, exceptBindErr] at h
                have hph := parse_value_err hpv
                have he := Except.error.inj h
                rw [← he, hph]
                exact ⟨rfl, rfl⟩
              | ok v =>
                rw [hpv, exceptBindOk] at h
                cases h
          | none =>
            rw [hcq] at h
            simp only [] at h
            cases hpv : parse_value cfg kv.2 n with
            | error e3 =>
              rw [hpv, exceptBindErr] at h
              have hph := parse_value_err hpv
              have he := Except.error.inj h
              rw [← he, hph]
              exact ⟨rfl, rfl⟩
            | ok v =>
              rw [hpv, exceptBindOk] at h
              cases h

theorem scanLine_inv {cfg : ParserConfig} {st st' : ScanState} {n : Nat}
    {line : List Char} (hn : 1 ≤ n)
    (hst : ∀ k, st.mlKey = some k → 1 ≤ st.mlStart)
    (h : scanLine cfg st n line = .ok st') :
    ∀ k, st'.mlKey = some k → 1 ≤ st'.mlStart := by
  unfold scanLine at h
  cases hml : st.mlKey with
  | some k0 =>
    rw [hml] at h
    simp only [] at h
    split at h
    · have := Except.ok.inj h
      rw [← this]
      intro k hk
      cases hk
    · have := Except.ok.inj h
      rw [← this]
      intro k hk
      simp at hk
      exact hst k0 hml
  | none =>
    rw [hml] at h
    simp only [] at h
    split at h
    · have := Except.ok.inj h
      rw [← this]
      intro k hk
      exact hst k hk
    · cases hsp : split_key_value (trimBoth line) n with
      | error e1 => rw [hsp, exceptBindErr] at h; cases h
      | ok kv =>
        rw [hsp, exceptBindOk] at h
        cases hv : validate_key cfg kv.1 n with
        | error e2 => rw [hv, exceptBindErr] at h; cases h
        | ok u =>
          rw [hv, exceptBindOk] at h
          cases hcq : classify_quote kv.2 with
          | some q =>
            rw [hcq] at h
            simp only [] at h
            split at h
            · have := Except.ok.inj h
              rw [← this]
              intro k hk
              exact hn
            · cases hpv : parse_value cfg kv.2 n with
              | error e3 => rw [hpv, exceptBindErr] at h; cases h
              | ok v =>
                rw [hpv, exceptBindOk] at h
                have := Except.ok.inj h
                rw [← this]
                intro k hk
                simp at hk
          | none =>
            rw [hcq] at h
            simp only [] at h
            cases hpv : parse_value cfg kv.2 n with
            | error e3 => rw [hpv, exceptBindErr] at h; cases h
            | ok v =>
              rw [hpv, exceptBindOk] at h
              have := Except.ok.inj h
              rw [← this]
              intro k hk
              simp at hk

theorem scanLines_err (cfg : ParserConfig) :
    ∀ (lines : List (List Char)) (st : ScanState) (n : Nat) (e : ParseError),
      1 ≤ n → scanLines cfg st n lines = .error e →
      isScanErr e = true ∧ 1 ≤ errLine e := by
  intro lines
  induction lines with
  | nil =>
    intro st n e hn h
    cases h
  | cons l ls ih =>
    intro st n e hn h
    unfold scanLines at h
    cases hsl : scanLine cfg st n l with
    | error e1 =>
      rw [hsl, exceptBindErr] at h
      have := scanLine_err hsl
      have he := Except.error.inj h
      rw [← he]
      exact ⟨this.1, this.2 ▸ hn⟩
    | ok st1 =>
      rw [hsl, exceptBindOk] at h
      exact ih st1 (n + 1) e (by omega) h

theorem scanLines_inv (cfg : ParserConfig) :
    ∀ (lines : List (List Char)) (st st' : ScanState) (n : Nat),
      1 ≤ n → (∀ k, st.mlKey = some k → 1 ≤ st.mlStart) →
      scanLines cfg st n lines = .ok st' →
      (∀ k, st'.mlKey = some k → 1 ≤ st'.mlStart) := by
  intro lines
  induction lines with
  | nil =>
    intro st st' n hn hst h
    have := Except.ok.inj h
    rw [← this]
    exact hst
  | cons l ls ih =>
    intro st st' n hn hst h
    unfold scanLines at h
    cases hsl : scanLine cfg st n l with
    | error e1 => rw [hsl, exceptBindErr] at h; cases h
    | ok st1 =>
      rw [hsl, exceptBindOk] at h
      exact ih st1 st' (n + 1) (by omega) (scanLine_inv hn hst hsl) h

/-- C3 counterexample: `A=${B}` with `B` undefined fails with an
`UndefinedVariable` error carrying line `0`, not the line (`1`) of the
triggering construct — refuting the claim that the error's line field is the
line number of the earliest-triggering construct. -/
theorem claim_C3_counterexample :
    parse_content defaultConfig ("A=$".data ++ lbc :: "B".data ++ [rbc])
      = .error (.UndefinedVariable 0 "B".data) ∧ (0 : Nat) ≠ 1 := by
  constructor
  · decide
  · decide

/-- C3 (amended): `parse_content` is a total function into
`Except ParseError`, so a parse either succeeds with one complete mapping or
fails with exactly one structured error and never returns a partial mapping;
scan-phase error kinds (`InvalidFormat`, `InvalidKey`, `UnterminatedString`)
always carry a 1-indexed line number, while expansion-phase error kinds
(`UndefinedVariable`, `CircularExpansion`, `ExpansionDepthExceeded`) always
carry line `0` (the expansion pass's line hint), not the line of the
triggering construct. -/
theorem claim_C3 (cfg : ParserConfig) (content : List Char) (e : ParseError)
    (h : parse_content cfg content = .error e) :
    (isExpErr e = true → errLine e = 0) ∧
    (isScanErr e = true → 1 ≤ errLine e) := by
  unfold parse_content at h
  cases hs : scanLines cfg initState 1 (rustLines content) with
  | error e1 =>
    rw [hs, exceptBindErr] at h
    have he := Except.error.inj h
    have hp := scanLines_err cfg _ _ _ _ le_rfl hs
    rw [← he]
    constructor
    · intro hexp
      rw [kinds_disjoint2 hexp] at hp
      cases hp.1
    · intro _
      exact hp.2
  | ok st =>
    rw [hs, exceptBindOk] at h
    cases hk : st.mlKey with
    | some k =>
      rw [hk] at h
      simp only [] at h
      have he := Except.error.inj h
      have hinv := scanLines_inv cfg _ _ _ _ le_rfl
        (fun k hk2 => by cases hk2) hs
      rw [← he]
      constructor
      · intro hexp
        cases hexp
      · intro _
        exact hinv k hk
    | none =>
      rw [hk] at h
      simp only [] at h
      split at h
      · have hp := expandKeys_err cfg st.vars _ _ h
        constructor
        · intro _
          exact hp.1
        · intro hscan
          rw [kinds_disjoint hscan] at hp
          cases hp.2
      · cases h

/-- C3 witness: the amended theorem at the concrete failing input `A=${B}`. -/
theorem claim_C3_witness :
    (isExpErr (.UndefinedVariable 0 "B".data) = true →
      errLine (.UndefinedVariable 0 "B".data) = 0) ∧
    (isScanErr (.UndefinedVariable 0 "B".data) = true →
      1 ≤ errLine (.UndefinedVariable 0 "B".data)) :=
  claim_C3 defaultConfig ("A=$".data ++ lbc :: "B".data ++ [rbc])
    (.UndefinedVariable 0 "B".data) (by decide)

/-! ## Simple unquoted assignment lines -/

theorem isPrefixOf_append_eq_false {v : List Char} :
    ∀ (p k : List Char), (∀ c ∈ p, c ≠ '=') →
      p.isPrefixOf k = false → p.isPrefixOf (k ++ '=' :: v) = false := by
  intro p
  induction p with
  | nil =>
    intro k _ hpre
    exact absurd hpre (by simp [List.isPrefixOf])
  | cons a p' ih =>
    intro k hne hpre
    cases k with
    | nil =>
      have ha : a ≠ '=' := hne a (List.mem_cons_self a p')
      show ((a == '=') && p'.isPrefixOf v) = false
      simp [ha]
    | cons b k' =>
      show ((a == b) && p'.isPrefixOf (k' ++ '=' :: v)) = false
      have hpre2 : ((a == b) && p'.isPrefixOf k') = false := hpre
      by_cases hab : a = b
      · simp only [hab, beq_self_eq_true, Bool.true_and] at hpre2 ⊢
        exact ih k' (fun c hc => hne c (List.mem_cons_of_mem a hc)) hpre2
      · simp [hab]

theorem parse_value_simple (cfg : ParserConfig) (v : List Char) (n : Nat)
    (hv1 : trimStart v = v) (hv2 : noTrailWs v = true) (hv3 : '#' ∉ v)
    (hv4 : classify_quote v = none) :
    parse_value cfg v n = .ok v := by
  unfold parse_value
  rw [hv1]
  cases v with
  | nil => rfl
  | cons v0 vr =>
    unfold classify_quote at hv4
    rw [hv1] at hv4
    simp only [] at hv4
    have hq : ¬(v0 = dqc ∨ v0 = sqc ∨ v0 = btc) := by
      intro hp
      rw [if_pos hp] at hv4
      cases hv4
    simp only []
    rw [if_neg (fun e => hq (Or.inl e))]
    rw [if_neg (fun e => hq (Or.inr e))]
    have hte : trimEnd (v0 :: vr) = v0 :: vr := trimEnd_eq_self hv2
    have hco : ((v0 :: vr).contains '#') = false := contains_eq_false_of_not_mem hv3
    rw [hco]
    simp only [Bool.false_eq_true, if_false, ite_self, hte]
    have htb : trimBoth (v0 :: vr) = v0 :: vr := by
      unfold trimBoth
      rw [hv1, hte]
    rw [htb, ite_self]

theorem scanLine_simple (cfg : ParserConfig) (vars : Vars) (mlv0 : List Char)
    (mlq0 : Char) (mls0 n : Nat) (k v : List Char)
    (hk : validKeyBool k = true)
    (hke : "export".data.isPrefixOf k = false)
    (hv1 : trimStart v = v)
    (hv2 : noTrailWs v = true)
    (hv3 : '#' ∉ v)
    (hv4 : classify_quote v = none) :
    scanLine cfg ⟨vars, none, mlv0, mlq0, mls0⟩ n (k ++ '=' :: v)
      = (validate_key cfg k n).map
          (fun _ => (⟨insertVar vars k v, none, mlv0, mlq0, mls0⟩ : ScanState)) := by
  have hkchars := validKey_chars hk
  have hkws : ∀ c ∈ k, isWsChar c = false := fun c hc => alnum_not_ws (hkchars c hc)
  have hkeq : ∀ c ∈ k, (decide (c ≠ '=') : Bool) = true := by
    intro c hc
    have : c ≠ '=' :=
      ne_of_testBool (p := fun x => x.isAlphanum || x = '_') (hkchars c hc) (by decide)
    simpa using this
  obtain ⟨c0, krest, rfl⟩ : ∃ c0 krest, k = c0 :: krest := by
    cases k with
    | nil => cases hk
    | cons a b => exact ⟨a, b, rfl⟩
  have hc0alpha : c0.isAlpha = true := by
    simp only [validKeyBool, Bool.and_eq_true] at hk
    exact hk.1
  have hline : (c0 :: krest) ++ '=' :: v = c0 :: (krest ++ '=' :: v) := rfl
  have hnt : noTrailWs ((c0 :: krest) ++ '=' :: v) = true := by
    cases v with
    | nil => exact noTrailWs_concat _ (by decide)
    | cons v0 vr =>
      refine noTrailWs_append_right (by simp) ?_
      rw [noTrailWs_cons (by simp)]
      exact hv2
  have htrim : trimBoth ((c0 :: krest) ++ '=' :: v) = (c0 :: krest) ++ '=' :: v := by
    unfold trimBoth
    rw [hline, trimStart_cons_not_ws _ (alnum_not_ws (alpha_alnum hc0alpha)), ← hline]
    exact trimEnd_eq_self hnt
  have hsplit : split_key_value ((c0 :: krest) ++ '=' :: v) n = .ok (c0 :: krest, v) := by
    unfold split_key_value
    rw [isPrefixOf_append_eq_false "export".data (c0 :: krest) (by decide) hke]
    simp only [Bool.false_eq_true, if_false]
    rw [contains_eq_true_of_mem (by simp)]
    simp only [if_true]
    rw [takeWhile_append_all _ hkeq, dropWhile_append_all _ hkeq]
    rw [show List.takeWhile (fun c => decide (c ≠ '=')) ('=' :: v) = [] from by
      simp [List.takeWhile_cons]]
    rw [show List.dropWhile (fun c => decide (c ≠ '=')) ('=' :: v) = '=' :: v from by
      simp [List.dropWhile_cons]]
    rw [List.append_nil]
    have : trimBoth (c0 :: krest) = c0 :: krest := by
      unfold trimBoth
      rw [trimStart_cons_not_ws _ (alnum_not_ws (alpha_alnum hc0alpha))]
      exact trimEnd_eq_self (noTrailWs_of_chars hkws)
    rw [this]
    rfl
  unfold scanLine
  simp only [htrim, hsplit, exceptBindOk]
  rw [if_neg (by
    intro hor
    rcases hor with he | hh
    · cases he
    · rw [hline] at hh
      simp at hh
      exact ne_of_testBool hc0alpha (by decide : ('#').isAlpha = false) hh)]
  cases hval : validate_key cfg (c0 :: krest) n with
  | error e => rfl
  | ok u =>
    cases u
    rw [exceptBindOk, hv4]
    simp only []
    rw [parse_value_simple cfg v n hv1 hv2 hv3 hv4, exceptBindOk]
    rfl

theorem validate_default_ok (k : List Char) (n : Nat)
    (hk : validKeyBool k = true) :
    validate_key defaultConfig k n = .ok () := by
  refine (validate_key_iff defaultConfig k n).mpr ?_
  cases k with
  | nil => cases hk
  | cons c rest =>
    simp only [validKeyBool, Bool.and_eq_true] at hk
    refine ⟨by simp, ?_, ?_, ?_⟩
    · intro h hh
      simp at hh
      rw [← hh]
      exact hk.1
    · intro x hx
      exact List.all_eq_true.mp hk.2 x hx
    · intro hs
      exact absurd hs (by decide)

theorem stripCR1_of_noTrail {l : List Char} (h : noTrailWs l = true) :
    stripCR1 l = l := by
  refine stripCR1_eq ?_
  intro hgl
  unfold noTrailWs at h
  rw [hgl] at h
  simp at h
  exact absurd (by decide : isWsChar crc = true) (by rw [h]; exact Bool.false_ne_true)

/-- C9: when the same valid key is assigned on two lines, parsing succeeds
and the mapping holds the fully-processed value of the textually last
assignment; the earlier value is silently discarded (it is not even
expanded).  Stated for simple unquoted values (no quotes, `#`, `$`,
newlines, or surrounding whitespace in the value spans). -/
theorem claim_C9 (k v1 v2 : List Char)
    (hk : validKeyBool k = true)
    (hke : "export".data.isPrefixOf k = false)
    (hva : trimStart v1 = v1) (hvb : noTrailWs v1 = true)
    (hvc : '#' ∉ v1) (hvd : classify_quote v1 = none) (hve : nlc ∉ v1)
    (hvf : trimStart v2 = v2) (hvg : noTrailWs v2 = true)
    (hvh : '#' ∉ v2) (hvi : classify_quote v2 = none) (hvj : nlc ∉ v2)
    (hvk : '$' ∉ v2) :
    parse_content defaultConfig ((k ++ '=' :: v1) ++ nlc :: (k ++ '=' :: v2))
      = .ok [(k, v2)] := by
  have hknl : nlc ∉ k := fun hm =>
    absurd (validKey_chars hk nlc hm) (by decide)
  have hl1nl : nlc ∉ (k ++ '=' :: v1) := by
    intro hm
    rcases List.mem_append.mp hm with h1 | h2
    · exact hknl h1
    · rcases List.mem_cons.mp h2 with e | h3
      · exact absurd e (by decide)
      · exact hve h3
  have hl2nl : nlc ∉ (k ++ '=' :: v2) := by
    intro hm
    rcases List.mem_append.mp hm with h1 | h2
    · exact hknl h1
    · rcases List.mem_cons.mp h2 with e | h3
      · exact absurd e (by decide)
      · exact hvj h3
  have hnt1 : noTrailWs (k ++ '=' :: v1) = true := by
    cases v1 with
    | nil => exact noTrailWs_concat _ (by decide)
    | cons a b =>
      refine noTrailWs_append_right (by simp) ?_
      rw [noTrailWs_cons (by simp)]
      exact hvb
  have hrl : rustLines ((k ++ '=' :: v1) ++ nlc :: (k ++ '=' :: v2))
      = [k ++ '=' :: v1, k ++ '=' :: v2] := by
    have hsp : splitNl ((k ++ '=' :: v1) ++ nlc :: (k ++ '=' :: v2))
        = [k ++ '=' :: v1] ++ [k ++ '=' :: v2] := by
      rw [splitNl_append_nl _ hl1nl, splitNl_no_nl hl2nl]
      rfl
    rw [rustLines_eq_of_last hsp (by simp)]
    simp [stripCR1_of_noTrail hnt1]
  unfold parse_content
  rw [hrl]
  unfold scanLines
  rw [show initState = (⟨[], none, [], dqc, 0⟩ : ScanState) from rfl]
  rw [scanLine_simple defaultConfig [] [] dqc 0 1 k v1 hk hke hva hvb hvc hvd]
  rw [validate_default_ok k 1 hk]
  rw [show Except.map (fun _ => (⟨insertVar [] k v1, none, [], dqc, 0⟩ : ScanState))
      (Except.ok ()) = Except.ok (⟨insertVar [] k v1, none, [], dqc, 0⟩ : ScanState)
    from rfl]
  rw [exceptBindOk]
  unfold scanLines
  rw [scanLine_simple defaultConfig (insertVar [] k v1) [] dqc 0 2 k v2 hk hke hvf hvg hvh hvi]
  rw [validate_default_ok k 2 hk]
  rw [show Except.map
      (fun _ => (⟨insertVar (insertVar [] k v1) k v2, none, [], dqc, 0⟩ : ScanState))
      (Except.ok ())
      = Except.ok (⟨insertVar (insertVar [] k v1) k v2, none, [], dqc, 0⟩ : ScanState)
    from rfl]
  rw [exceptBindOk]
  unfold scanLines
  rw [exceptBindOk]
  have hins : insertVar (insertVar [] k v1) k v2 = [(k, v2)] := by
    show insertVar [(k, v1)] k v2 = [(k, v2)]
    unfold insertVar
    simp
  show (if defaultConfig.allow_expansion = true
    then expand_all defaultConfig (insertVar (insertVar [] k v1) k v2)
    else Except.ok (insertVar (insertVar [] k v1) k v2)) = _
  rw [hins]
  rw [if_pos (show defaultConfig.allow_expansion = true from rfl)]
  exact expand_all_single defaultConfig k v2 hvk

/-- C9 witness: `KEY=a` then `KEY=b` maps `KEY` to `b`. -/
theorem claim_C9_witness :
    parse_content defaultConfig
        (("KEY=".data ++ "a".data) ++ nlc :: ("KEY=".data ++ "b".data))
      = .ok [("KEY".data, "b".data)] :=
  claim_C9 "KEY".data "a".data "b".data (by decide) (by decide) (by decide)
    (by decide) (by decide) (by decide) (by decide) (by decide) (by decide)
    (by decide) (by decide) (by decide) (by decide)

theorem isPrefixOf_self_append : ∀ (p rest : List Char),
    p.isPrefixOf (p ++ rest) = true := by
  intro p
  induction p with
  | nil => intro rest; simp [List.isPrefixOf]
  | cons a p' ih =>
    intro rest
    show ((a == a) && p'.isPrefixOf (p' ++ rest)) = true
    simp [ih rest]

theorem expandKeys_keys (cfg : ParserConfig) (vars : Vars) :
    ∀ (ks : List (List Char)) (m : Vars),
      expandKeys cfg vars ks = .ok m → m.map Prod.fst = ks := by
  intro ks
  induction ks with
  | nil =>
    intro m h
    have := Except.ok.inj h
    rw [← this]
    rfl
  | cons x rest ih =>
    intro m h
    simp only [expandKeys] at h
    cases hev : expand_value cfg vars (cfg.max_expansion_depth + 1) [] 0
        ((lookupVar vars x).getD []) with
    | error e1 => rw [hev, exceptBindErr] at h; cases h
    | ok r =>
      rw [hev, exceptBindOk] at h
      cases hrest : expandKeys cfg vars rest with
      | error e2 => rw [hrest, exceptBindErr] at h; cases h
      | ok m2 =>
        rw [hrest, exceptBindOk] at h
        have := Except.ok.inj h
        rw [← this]
        simp [ih m2 hrest]

theorem lookupVar_eq_none {m : Vars} {k : List Char}
    (h : ∀ p ∈ m, p.1 ≠ k) : lookupVar m k = none := by
  induction m with
  | nil => rfl
  | cons p rest ih =>
    unfold lookupVar
    rw [if_neg (h p (List.mem_cons_self p rest))]
    exact ih (fun q hq => h q (List.mem_cons_of_mem p hq))

theorem scanLine_vars_key {cfg : ParserConfig} {a : List Char} {b : Char}
    {c n : Nat} {line : List Char} {st' : ScanState} {keyx rawx : List Char}
    (hsp : split_key_value (trimBoth line) n = .ok (keyx, rawx))
    (h : scanLine cfg ⟨[], none, a, b, c⟩ n line = .ok st') :
    ∀ p ∈ st'.vars, p.1 = keyx := by
  unfold scanLine at h
  simp only [] at h
  split at h
  · have := Except.ok.inj h
    rw [← this]
    intro p hp
    cases hp
  · rw [hsp, exceptBindOk] at h
    cases hv : validate_key cfg (keyx, rawx).1 n with
    | error e2 => rw [hv, exceptBindErr] at h; cases h
    | ok u =>
      rw [hv, exceptBindOk] at h
      cases hcq : classify_quote (keyx, rawx).2 with
      | some q =>
        rw [hcq] at h
        simp only [] at h
        split at h
        · have := Except.ok.inj h
          rw [← this]
          intro p hp
          cases hp
        · cases hpv : parse_value cfg (keyx, rawx).2 n with
          | error e3 => rw [hpv, exceptBindErr] at h; cases h
          | ok val =>
            rw [hpv, exceptBindOk] at h
            have := Except.ok.inj h
            rw [← this]
            intro p hp
            rcases List.mem_cons.mp hp with rfl | hp2
            · rfl
            · cases hp2
      | none =>
        rw [hcq] at h
        simp only [] at h
        cases hpv : parse_value cfg (keyx, rawx).2 n with
        | error e3 => rw [hpv, exceptBindErr] at h; cases h
        | ok val =>
          rw [hpv, exceptBindOk] at h
          have := Except.ok.inj h
          rw [← this]
          intro p hp
          rcases List.mem_cons.mp hp with rfl | hp2
          · rfl
          · cases hp2

theorem split_export_line (k v krest : List Char) (n : Nat)
    (hk : validKeyBool k = true)
    (hdecomp : k = "export".data ++ krest) :
    split_key_value (trimBoth (k ++ '=' :: v)) n = .ok (krest, trimEnd v) := by
  have hkchars := validKey_chars hk
  have hkrest_sub : ∀ c ∈ krest, c ∈ k := by
    intro c hc
    rw [hdecomp]
    exact List.mem_append_right _ hc
  have hkrest_alnum : ∀ c ∈ krest, (c.isAlphanum || c = '_') = true :=
    fun c hc => hkchars c (hkrest_sub c hc)
  have hkrest_ws : ∀ c ∈ krest, isWsChar c = false :=
    fun c hc => alnum_not_ws (hkrest_alnum c hc)
  have hkrest_eq : ∀ c ∈ krest, (decide (c ≠ '=') : Bool) = true := by
    intro c hc
    have : c ≠ '=' :=
      ne_of_testBool (p := fun x => x.isAlphanum || x = '_')
        (hkrest_alnum c hc) (by decide)
    simpa using this
  have hknt : noTrailWs (k ++ ['=']) = true := noTrailWs_concat _ (by decide)
  have htrim : trimBoth (k ++ '=' :: v) = k ++ '=' :: trimEnd v := by
    unfold trimBoth
    have h1 : trimStart (k ++ '=' :: v) = k ++ '=' :: v := by
      refine trimStart_eq_self_of_head ?_ (by decide : isWsChar 'e' = false)
      rw [hdecomp]
      rfl
    rw [h1]
    have h2 : k ++ '=' :: v = (k ++ ['=']) ++ v := by simp
    rw [h2, trimEnd_append v hknt]
    simp
  rw [htrim]
  unfold split_key_value
  have hpre : ("export".data.isPrefixOf (k ++ '=' :: trimEnd v)) = true := by
    rw [hdecomp, List.append_assoc]
    exact isPrefixOf_self_append _ _
  rw [hpre]
  simp only [if_true]
  have hdrop : (k ++ '=' :: trimEnd v).drop 6 = krest ++ '=' :: trimEnd v := by
    rw [hdecomp, List.append_assoc]
    exact List.drop_left "export".data _
  rw [hdrop]
  cases krest with
  | nil =>
    rw [List.nil_append]
    rw [trimStart_cons_not_ws _ (by decide : isWsChar '=' = false)]
    rw [contains_eq_true_of_mem (List.mem_cons_self '=' _)]
    simp only [if_true]
    rw [show List.takeWhile (fun c => decide (c ≠ '=')) ('=' :: trimEnd v) = [] from by
      simp [List.takeWhile_cons]]
    rw [show List.dropWhile (fun c => decide (c ≠ '=')) ('=' :: trimEnd v)
        = '=' :: trimEnd v from by simp [List.dropWhile_cons]]
    rfl
  | cons kc0 ktail =>
    have hts : trimStart ((kc0 :: ktail) ++ '=' :: trimEnd v)
        = (kc0 :: ktail) ++ '=' :: trimEnd v :=
      trimStart_cons_not_ws _ (hkrest_ws kc0 (List.mem_cons_self kc0 ktail))
    rw [hts]
    rw [contains_eq_true_of_mem (by simp)]
    simp only [if_true]
    rw [takeWhile_append_all _ hkrest_eq, dropWhile_append_all _ hkrest_eq]
    rw [show List.takeWhile (fun c => decide (c ≠ '=')) ('=' :: trimEnd v) = [] from by
      simp [List.takeWhile_cons]]
    rw [show List.dropWhile (fun c => decide (c ≠ '=')) ('=' :: trimEnd v)
        = '=' :: trimEnd v from by simp [List.dropWhile_cons]]
    rw [List.append_nil]
    have : trimBoth (kc0 :: ktail) = kc0 :: ktail := by
      unfold trimBoth
      rw [trimStart_cons_not_ws _ (hkrest_ws kc0 (List.mem_cons_self kc0 ktail))]
      exact trimEnd_eq_self (noTrailWs_of_chars hkrest_ws)
    rw [this]
    rfl

/-- C10: the `export` prefix is stripped even without following whitespace —
`exportKEY=value` parses to key `KEY` and `exported=1` parses to key `ed`
with value `1`; in general, a syntactically valid key that begins with the
letters `export` at the start of a line is never preserved verbatim: any
successful parse of `k=v` (single line) contains no binding for `k` itself. -/
theorem claim_C10 :
    parse_content defaultConfig "exportKEY=value".data
      = .ok [("KEY".data, "value".data)] ∧
    parse_content defaultConfig "exported=1".data
      = .ok [("ed".data, "1".data)] ∧
    (∀ (k v : List Char) (m : Vars),
      validKeyBool k = true →
      "export".data.isPrefixOf k = true →
      nlc ∉ v →
      parse_content defaultConfig (k ++ '=' :: v) = .ok m →
      lookupVar m k = none) := by
  refine ⟨by decide, by decide, ?_⟩
  intro k v m hk hpre hnl hparse
  obtain ⟨krest, hdecomp⟩ : ∃ t, k = "export".data ++ t := by
    have := List.isPrefixOf_iff_prefix.mp hpre
    obtain ⟨t, ht⟩ := this
    exact ⟨t, ht.symm⟩
  have hknl : nlc ∉ k := fun hm =>
    absurd (validKey_chars hk nlc hm) (by decide)
  have hcnl : nlc ∉ (k ++ '=' :: v) := by
    intro hm
    rcases List.mem_append.mp hm with h1 | h2
    · exact hknl h1
    · rcases List.mem_cons.mp h2 with e | h3
      · exact absurd e (by decide)
      · exact hnl h3
  have hrl : rustLines (k ++ '=' :: v) = [k ++ '=' :: v] := by
    refine rustLines_single hcnl ?_
    cases k with
    | nil => cases hk
    | cons a b => simp
  unfold parse_content at hparse
  rw [hrl] at hparse
  unfold scanLines at hparse
  cases hsl : scanLine defaultConfig initState 1 (k ++ '=' :: v) with
  | error e =>
    rw [hsl, exceptBindErr] at hparse
    cases hparse
  | ok st1 =>
    rw [hsl, exceptBindOk] at hparse
    unfold scanLines at hparse
    rw [exceptBindOk] at hparse
    have hsl2 : scanLine defaultConfig ⟨[], none, [], dqc, 0⟩ 1 (k ++ '=' :: v)
        = .ok st1 := hsl
    have hkeys : ∀ p ∈ st1.vars, p.1 = krest :=
      scanLine_vars_key (split_export_line k v krest 1 hk hdecomp) hsl2
    cases hmk : st1.mlKey with
    | some k2 =>
      rw [hmk] at hparse
      simp only [] at hparse
      cases hparse
    | none =>
      rw [hmk] at hparse
      simp only [] at hparse
      rw [if_pos (show defaultConfig.allow_expansion = true from rfl)] at hparse
      have hmkeys : m.map Prod.fst = st1.vars.map Prod.fst :=
        expandKeys_keys defaultConfig st1.vars _ m hparse
      refine lookupVar_eq_none ?_
      intro p hp hpk
      have hp1 : p.1 ∈ m.map Prod.fst := List.mem_map_of_mem Prod.fst hp
      rw [hmkeys] at hp1
      obtain ⟨q, hq, hq1⟩ := List.mem_map.mp hp1
      have : q.1 = krest := hkeys q hq
      rw [← hq1, this] at hpk
      have hlen := congrArg List.length hpk
      rw [hdecomp] at hlen
      simp at hlen
      omega

/-- C10 witness: the general no-verbatim-key part at `exportKEY=value`. -/
theorem claim_C10_witness :
    lookupVar [("KEY".data, "value".data)] "exportKEY".data = none :=
  claim_C10.2.2 "exportKEY".data "value".data [("KEY".data, "value".data)]
    (by decide) (by decide) (by decide) (by decide)

/-! ## Linear-chain lemmas (C6) -/

theorem validate_ok_of_not_strict (cfg : ParserConfig) (k : List Char) (n : Nat)
    (hs : cfg.strict = false) (hk : validKeyBool k = true) :
    validate_key cfg k n = .ok () := by
  refine (validate_key_iff cfg k n).mpr ?_
  cases k with
  | nil => cases hk
  | cons c rest =>
    simp only [validKeyBool, Bool.and_eq_true] at hk
    refine ⟨by simp, ?_, ?_, ?_⟩
    · intro h hh
      simp at hh
      rw [← hh]
      exact hk.1
    · intro x hx
      exact List.all_eq_true.mp hk.2 x hx
    · intro hstrict
      rw [hs] at hstrict
      cases hstrict

theorem insertVar_append_of_fresh (k v : List Char) :
    ∀ (vars : Vars), (∀ p ∈ vars, p.1 ≠ k) →
      insertVar vars k v = vars ++ [(k, v)] := by
  intro vars
  induction vars with
  | nil => intro _; rfl
  | cons p rest ih =>
    intro h
    obtain ⟨k0, v0⟩ := p
    unfold insertVar
    rw [if_neg (h (k0, v0) (List.mem_cons_self _ rest))]
    rw [ih (fun q hq => h q (List.mem_cons_of_mem _ hq))]
    rfl

theorem foldl_insert_fresh :
    ∀ (ps : List (List Char × List Char)) (vars0 : Vars),
      (ps.map Prod.fst).Nodup →
      (∀ q ∈ vars0, ∀ p ∈ ps, q.1 ≠ p.1) →
      ps.foldl (fun vs p => insertVar vs p.1 p.2) vars0 = vars0 ++ ps := by
  intro ps
  induction ps with
  | nil => intro vars0 _ _; simp
  | cons p rest ih =>
    intro vars0 hnd hdisj
    rw [List.foldl_cons]
    rw [insertVar_append_of_fresh p.1 p.2 vars0
      (fun q hq => hdisj q hq p (List.mem_cons_self p rest))]
    rw [List.map_cons, List.nodup_cons] at hnd
    rw [ih (vars0 ++ [(p.1, p.2)]) hnd.2 ?_]
    · simp
    · intro q hq r hr
      rcases List.mem_append.mp hq with hq1 | hq2
      · exact hdisj q hq1 r (List.mem_cons_of_mem p hr)
      · have : q = (p.1, p.2) := by simpa using hq2
        rw [this]
        intro he
        exact hnd.1 (he ▸ List.mem_map_of_mem Prod.fst hr)

theorem lookupVar_of_mem_nodup :
    ∀ (m : Vars), (m.map Prod.fst).Nodup →
      ∀ {k v : List Char}, (k, v) ∈ m → lookupVar m k = some v := by
  intro m
  induction m with
  | nil => intro _ k v h; cases h
  | cons p rest ih =>
    intro hnd k v hmem
    rw [List.map_cons, List.nodup_cons] at hnd
    obtain ⟨k0, v0⟩ := p
    unfold lookupVar
    rcases List.mem_cons.mp hmem with he | hm
    · rw [if_pos (congrArg Prod.fst he).symm]
      rw [show v0 = v from congrArg Prod.snd he.symm]
    · rw [if_neg ?_]
      · exact ih hnd.2 hm
      · intro he
        have hmm : (k, v).1 ∈ rest.map Prod.fst := List.mem_map_of_mem Prod.fst hm
        refine hnd.1 ?_
        rw [he]
        exact hmm

theorem containsL_eq_false_of_not_mem {x : List Char} {l : List (List Char)}
    (h : x ∉ l) : l.contains x = false := by
  simpa using h

theorem rustLines_joinNlAll (ls : List (List Char))
    (h1 : ∀ m ∈ ls, nlc ∉ m)
    (h2 : ∀ m ∈ ls, noTrailWs m = true)
    (hlast : ls.getLast? ≠ some []) :
    rustLines (joinNlAll ls) = ls := by
  cases hdest : ls.getLast? with
  | none =>
    rw [List.getLast?_eq_none_iff.mp hdest]
    rfl
  | some lst =>
    obtain ⟨ms, hms⟩ : ∃ ms, ls = ms ++ [lst] := by
      rcases List.eq_nil_or_concat ls with hnil | ⟨ms, a, hc⟩
      · rw [hnil] at hdest; cases hdest
      · refine ⟨ms, ?_⟩
        have ha : a = lst := by
          rw [hc, List.concat_eq_append, List.getLast?_concat] at hdest
          exact Option.some.inj hdest
        rw [hc, List.concat_eq_append, ha]
    have hlne : lst ≠ [] := fun he => hlast (he ▸ hdest)
    have hsp : splitNl (joinNlAll ls) = ms ++ [lst] := by
      rw [splitNl_joinNlAll h1 (by rw [hms]; simp)]
      exact hms
    rw [rustLines_eq_of_last hsp hlne]
    have hmap : ms.map stripCR1 = ms := by
      refine map_id_of_eq ?_
      intro x hx
      exact stripCR1_of_noTrail (h2 x (hms ▸ List.mem_append_left [lst] hx))
    rw [hmap]
    exact hms.symm

theorem scanLines_simple_all (cfg : ParserConfig) (hs : cfg.strict = false) :
    ∀ (ps : List (List Char × List Char)) (vars0 : Vars) (mlv0 : List Char)
      (mlq0 : Char) (mls0 n : Nat),
      (∀ p ∈ ps, validKeyBool p.1 = true ∧
        "export".data.isPrefixOf p.1 = false ∧ trimStart p.2 = p.2 ∧
        noTrailWs p.2 = true ∧ '#' ∉ p.2 ∧ classify_quote p.2 = none) →
      scanLines cfg ⟨vars0, none, mlv0, mlq0, mls0⟩ n
          (ps.map (fun p => p.1 ++ '=' :: p.2))
        = .ok ⟨ps.foldl (fun vs p => insertVar vs p.1 p.2) vars0,
               none, mlv0, mlq0, mls0⟩ := by
  intro ps
  induction ps with
  | nil => intro vars0 mlv0 mlq0 mls0 n _; rfl
  | cons p rest ih =>
    intro vars0 mlv0 mlq0 mls0 n h
    obtain ⟨h1, h2, h3, h4, h5, h6⟩ := h p (List.mem_cons_self p rest)
    have hone : scanLine cfg ⟨vars0, none, mlv0, mlq0, mls0⟩ n (p.1 ++ '=' :: p.2)
        = .ok ⟨insertVar vars0 p.1 p.2, none, mlv0, mlq0, mls0⟩ := by
      rw [scanLine_simple cfg vars0 mlv0 mlq0 mls0 n p.1 p.2 h1 h2 h3 h4 h5 h6]
      rw [validate_ok_of_not_strict cfg p.1 n hs h1]
      rfl
    rw [List.map_cons]
    simp only [scanLines]
    rw [hone, exceptBindOk]
    rw [ih (insertVar vars0 p.1 p.2) mlv0 mlq0 mls0 (n + 1)
      (fun q hq => h q (List.mem_cons_of_mem p hq))]
    rfl

theorem chainVal_trimStart (name : Nat → List Char) (j : Nat) :
    trimStart (chainVal name j) = chainVal name j := by
  cases j with
  | zero => exact trimStart_cons_not_ws _ (by decide)
  | succ k => exact trimStart_cons_not_ws _ (by decide)

theorem chainVal_noTrail (name : Nat → List Char) (j : Nat) :
    noTrailWs (chainVal name j) = true := by
  cases j with
  | zero => exact (by decide : noTrailWs "x".data = true)
  | succ k =>
    show noTrailWs ('$' :: lbc :: name k ++ [rbc]) = true
    have : '$' :: lbc :: name k ++ [rbc] = ('$' :: lbc :: name k) ++ [rbc] := by
      simp
    rw [this]
    exact noTrailWs_concat _ (by decide)

theorem chainVal_no_hash (name : Nat → List Char) (j : Nat)
    (hn : ∀ i, j = i + 1 → validKeyBool (name i) = true) :
    '#' ∉ chainVal name j := by
  cases j with
  | zero => exact (by decide : '#' ∉ "x".data)
  | succ k =>
    show '#' ∉ '$' :: lbc :: name k ++ [rbc]
    intro hm
    have hk := hn k rfl
    rcases List.mem_cons.mp hm with he | hm2
    · cases he
    · rcases List.mem_cons.mp hm2 with he2 | hm3
      · cases he2
      · rcases List.mem_append.mp hm3 with hmn | hmb
        · exact absurd (validKey_chars hk '#' hmn) (by decide)
        · simp at hmb
          cases hmb

theorem chainVal_no_quote (name : Nat → List Char) (j : Nat) :
    classify_quote (chainVal name j) = none := by
  cases j with
  | zero => exact (by decide : classify_quote "x".data = none)
  | succ k =>
    show classify_quote ('$' :: lbc :: name k ++ [rbc]) = none
    unfold classify_quote
    have hh : (('$' :: lbc :: name k) ++ [rbc]).head? = some '$' := rfl
    rw [trimStart_eq_self_of_head hh (by decide)]
    have : ('$' :: lbc :: name k) ++ [rbc] = '$' :: ((lbc :: name k) ++ [rbc]) := rfl
    rw [this]
    simp only []
    rw [if_neg (by decide)]

theorem chainVal_no_nl (name : Nat → List Char) (j : Nat)
    (hn : ∀ i, j = i + 1 → validKeyBool (name i) = true) :
    nlc ∉ chainVal name j := by
  cases j with
  | zero => exact (by decide : nlc ∉ "x".data)
  | succ k =>
    show nlc ∉ '$' :: lbc :: name k ++ [rbc]
    intro hm
    have hk := hn k rfl
    rcases List.mem_cons.mp hm with he | hm2
    · cases he
    · rcases List.mem_cons.mp hm2 with he2 | hm3
      · cases he2
      · rcases List.mem_append.mp hm3 with hmn | hmb
        · exact absurd (validKey_chars hk nlc hmn) (by decide)
        · simp at hmb
          cases hmb

theorem scanGo_nil (cfg : ParserConfig) (vars : Vars)
    (sub : List (List Char) → List Char → Except ParseError (List Char))
    (stack : List (List Char)) (lineHint : Nat) (g : Nat) :
    scanGo cfg vars sub stack lineHint g [] = .ok [] := by
  cases g <;> rfl

theorem scanGo_braced (cfg : ParserConfig) (vars : Vars)
    (sub : List (List Char) → List Char → Except ParseError (List Char))
    (stack : List (List Char)) (lineHint : Nat) (g : Nat) (nm : List Char)
    (hg : 1 ≤ g) (hnm : rbc ∉ nm) (hst : stack.contains nm = false) :
    scanGo cfg vars sub stack lineHint g ('$' :: lbc :: (nm ++ [rbc])) =
      match lookupVar vars nm with
      | some v => do
          let e ← sub (stack ++ [nm]) v
          .ok (e ++ ([] : List Char))
      | none => .error (.UndefinedVariable lineHint nm) := by
  obtain ⟨g2, rfl⟩ : ∃ g2, g = g2 + 1 := ⟨g - 1, by omega⟩
  rw [scanGo.eq_def]
  simp only []
  simp only [if_true]
  have hpn : ∀ c ∈ nm, (decide (c ≠ rbc) : Bool) = true := by
    intro c hc
    have : c ≠ rbc := fun e => hnm (e ▸ hc)
    simpa using this
  have htw : (nm ++ [rbc]).takeWhile (fun x => decide (x ≠ rbc)) = nm := by
    rw [takeWhile_append_all _ hpn]
    simp [List.takeWhile_cons]
  have hdw : ((nm ++ [rbc]).dropWhile (fun x => decide (x ≠ rbc))).drop 1 = [] := by
    rw [dropWhile_append_all _ hpn]
    simp [List.dropWhile_cons]
  rw [htw, hdw, hst]
  simp only [Bool.false_eq_true, if_false]
  cases lookupVar vars nm with
  | none => rfl
  | some v =>
    simp only []
    cases sub (stack ++ [nm]) v with
    | error e => rfl
    | ok e =>
      rw [exceptBindOk, exceptBindOk, scanGo_nil, exceptBindOk]

theorem rbc_not_mem_validKey {k : List Char} (h : validKeyBool k = true) :
    rbc ∉ k := by
  intro hm
  exact absurd (validKey_chars h rbc hm) (by decide)

theorem chainVars_keys (name : Nat → List Char) (n : Nat) :
    (chainVars name n).map Prod.fst = (List.range (n + 1)).map name := by
  unfold chainVars
  rw [List.map_map]
  rfl

theorem expand_chain (cfg : ParserConfig) (name : Nat → List Char) (n : Nat)
    (hnd : ((List.range (n + 1)).map name).Nodup)
    (hv : ∀ i ∈ List.range (n + 1), validKeyBool (name i) = true) :
    ∀ j, j ≤ n → ∀ (f : Nat) (stack : List (List Char)) (lineHint : Nat),
      (∀ i, i < j → name i ∉ stack) →
      expand_value cfg (chainVars name n) f stack lineHint (chainVal name j)
        = if j < f then .ok "x".data
          else .error (.ExpansionDepthExceeded lineHint cfg.max_expansion_depth) := by
  have hinj : ∀ x ∈ List.range (n + 1), ∀ y ∈ List.range (n + 1),
      name x = name y → x = y := List.inj_on_of_nodup_map hnd
  have hndv : ((chainVars name n).map Prod.fst).Nodup := by
    rw [chainVars_keys]
    exact hnd
  intro j
  induction j with
  | zero =>
    intro _ f stack lineHint _
    cases f with
    | zero => rfl
    | succ f2 =>
      rw [if_pos (by omega)]
      show expand_value cfg (chainVars name n) (f2 + 1) stack lineHint "x".data
        = .ok "x".data
      exact expand_value_noDollar cfg (chainVars name n) f2 stack lineHint
        "x".data (by decide)
  | succ k ih =>
    intro hle f stack lineHint hfresh
    cases f with
    | zero =>
      rw [if_neg (by omega)]
      rfl
    | succ f2 =>
      have hkr : k ∈ List.range (n + 1) := List.mem_range.mpr (by omega)
      have hkv : validKeyBool (name k) = true := hv k hkr
      have hch : chainVal name (k + 1) = '$' :: lbc :: ((name k) ++ [rbc]) := by
        show ('$' :: lbc :: name k) ++ [rbc] = _
        simp
      show scanGo cfg (chainVars name n)
          (fun st v => expand_value cfg (chainVars name n) f2 st lineHint v)
          stack lineHint (chainVal name (k + 1)).length (chainVal name (k + 1))
        = _
      rw [hch]
      rw [scanGo_braced cfg (chainVars name n) _ stack lineHint _ (name k)
        (by simp) (rbc_not_mem_validKey hkv)
        (containsL_eq_false_of_not_mem (hfresh k (by omega)))]
      have hlook : lookupVar (chainVars name n) (name k) = some (chainVal name k) := by
        refine lookupVar_of_mem_nodup (chainVars name n) hndv ?_
        exact List.mem_map_of_mem (fun i => (name i, chainVal name i)) hkr
      rw [hlook]
      simp only []
      have hsub : expand_value cfg (chainVars name n) f2 (stack ++ [name k])
          lineHint (chainVal name k)
          = if k < f2 then .ok "x".data
            else .error (.ExpansionDepthExceeded lineHint cfg.max_expansion_depth) := by
        refine ih (by omega) f2 (stack ++ [name k]) lineHint ?_
        intro i hi hmem
        rcases List.mem_append.mp hmem with hm1 | hm2
        · exact hfresh i (by omega) hm1
        · have : name i = name k := by simpa using hm2
          have : i = k := hinj i (List.mem_range.mpr (by omega)) k hkr this
          omega
      rw [hsub]
      by_cases hkf : k < f2
      · rw [if_pos hkf, exceptBindOk, if_pos (by omega)]
        rw [List.append_nil]
      · rw [if_neg hkf, exceptBindErr, if_neg (by omega)]

theorem expandKeys_chain (cfg : ParserConfig) (name : Nat → List Char) (n : Nat)
    (hnd : ((List.range (n + 1)).map name).Nodup)
    (hv : ∀ i ∈ List.range (n + 1), validKeyBool (name i) = true)
    (hndv : ((chainVars name n).map Prod.fst).Nodup) :
    ∀ ks : List Nat, (∀ k ∈ ks, k ≤ n) →
      expandKeys cfg (chainVars name n) (ks.map name)
        = if ∀ k ∈ ks, k < cfg.max_expansion_depth + 1
          then .ok (ks.map fun k => (name k, "x".data))
          else .error (.ExpansionDepthExceeded 0 cfg.max_expansion_depth) := by
  intro ks
  induction ks with
  | nil =>
    intro _
    rw [if_pos (by intro k hk; cases hk)]
    rfl
  | cons k rest ih =>
    intro hks
    have hkn : k ≤ n := hks k (List.mem_cons_self k rest)
    have hkr : k ∈ List.range (n + 1) := List.mem_range.mpr (by omega)
    rw [List.map_cons]
    simp only [expandKeys]
    have hlook : lookupVar (chainVars name n) (name k) = some (chainVal name k) := by
      refine lookupVar_of_mem_nodup (chainVars name n) hndv ?_
      exact List.mem_map_of_mem (fun i => (name i, chainVal name i)) hkr
    rw [hlook]
    have hexp := expand_chain cfg name n hnd hv k hkn
      (cfg.max_expansion_depth + 1) [] 0 (fun i _ hm => by cases hm)
    rw [show (some (chainVal name k)).getD [] = chainVal name k from rfl, hexp]
    by_cases hkd : k < cfg.max_expansion_depth + 1
    · rw [if_pos hkd, exceptBindOk]
      rw [ih (fun q hq => hks q (List.mem_cons_of_mem k hq))]
      by_cases hall : ∀ q ∈ rest, q < cfg.max_expansion_depth + 1
      · rw [if_pos hall, exceptBindOk,
          if_pos (by
            intro q hq
            rcases List.mem_cons.mp hq with rfl | hq2
            · exact hkd
            · exact hall q hq2)]
        rfl
      · rw [if_neg hall, exceptBindErr,
          if_neg (by
            intro hcon
            exact hall (fun q hq => hcon q (List.mem_cons_of_mem k hq)))]
    · rw [if_neg hkd, exceptBindErr,
        if_neg (by
          intro hcon
          exact hkd (hcon k (List.mem_cons_self k rest)))]

theorem chainVal_ne_nil (name : Nat → List Char) (j : Nat) :
    chainVal name j ≠ [] := by
  cases j with
  | zero => exact (by decide : "x".data ≠ [])
  | succ k =>
    show ('$' :: lbc :: name k) ++ [rbc] ≠ []
    simp

theorem chain_scan (cfg : ParserConfig) (hs : cfg.strict = false)
    (name : Nat → List Char) (n : Nat)
    (hv : ∀ k ∈ List.range (n + 1), validKeyBool (name k) = true)
    (hexp : ∀ k ∈ List.range (n + 1), "export".data.isPrefixOf (name k) = false)
    (hnd : ((List.range (n + 1)).map name).Nodup) :
    scanLines cfg ⟨[], none, [], dqc, 0⟩ 1 (rustLines (chainContent name n))
      = .ok ⟨chainVars name n, none, [], dqc, 0⟩ := by
  have hvchain : ∀ k ∈ List.range (n + 1),
      ∀ i, k = i + 1 → validKeyBool (name i) = true := by
    intro k hk i he
    refine hv i (List.mem_range.mpr ?_)
    have := List.mem_range.mp hk
    omega
  have hlines : rustLines (chainContent name n)
      = (chainVars name n).map (fun p => p.1 ++ '=' :: p.2) := by
    show rustLines (joinNlAll
        ((List.range (n + 1)).map (fun k => name k ++ '=' :: chainVal name k))) = _
    rw [rustLines_joinNlAll _ ?_ ?_ ?_]
    · unfold chainVars
      rw [List.map_map]
      rfl
    · intro m hm
      obtain ⟨k, hk, rfl⟩ := List.mem_map.mp hm
      intro hmem
      rcases List.mem_append.mp hmem with hm1 | hm2
      · exact absurd (validKey_chars (hv k hk) nlc hm1) (by decide)
      · rcases List.mem_cons.mp hm2 with he | hm3
        · cases he
        · exact chainVal_no_nl name k (hvchain k hk) hm3
    · intro m hm
      obtain ⟨k, hk, rfl⟩ := List.mem_map.mp hm
      refine noTrailWs_append_right (by simp) ?_
      rw [noTrailWs_cons (chainVal_ne_nil name k)]
      exact chainVal_noTrail name k
    · intro hlast
      have hmem := List.mem_of_mem_getLast? hlast
      obtain ⟨k, hk, hke⟩ := List.mem_map.mp hmem
      rw [List.append_eq_nil] at hke
      cases hke.2
  rw [hlines]
  rw [scanLines_simple_all cfg hs (chainVars name n) [] [] dqc 0 1 ?_]
  · rw [foldl_insert_fresh (chainVars name n) [] ?_ (fun q hq => by cases hq)]
    · rw [List.nil_append]
    · rw [chainVars_keys]
      exact hnd
  · intro p hp
    obtain ⟨k, hk, rfl⟩ := List.mem_map.mp hp
    exact ⟨hv k hk, hexp k hk, chainVal_trimStart name k, chainVal_noTrail name k,
      chainVal_no_hash name k (hvchain k hk), chainVal_no_quote name k⟩

/-- C6: with max_expansion_depth set to d, the linear chain V0=x,
V1=${V0}, ..., Vn=${V(n-1)} (for any family of distinct valid,
non-export-prefixed key names) parses successfully exactly when n is at
most d and fails with ExpansionDepthExceeded when n exceeds d: the
ceiling bounds nesting across the whole chain for one top-level value.
Moreover the ceiling does not count side-by-side occurrences: with depth
1, a value holding three sibling references still parses. -/
theorem claim_C6 (d n : Nat) (name : Nat → List Char)
    (hnd : ((List.range (n + 1)).map name).Nodup)
    (hv : ∀ k ∈ List.range (n + 1), validKeyBool (name k) = true)
    (hexp : ∀ k ∈ List.range (n + 1), "export".data.isPrefixOf (name k) = false) :
    (parse_content { defaultConfig with max_expansion_depth := d }
        (chainContent name n)
      = if n ≤ d
        then .ok ((List.range (n + 1)).map (fun k => (name k, "x".data)))
        else .error (.ExpansionDepthExceeded 0 d)) ∧
    parse_content { defaultConfig with max_expansion_depth := 1 }
        ("V=x".data ++ nlc :: ("W=$".data ++ lbc :: ("V".data ++ rbc :: '$' ::
          lbc :: ("V".data ++ rbc :: '$' :: lbc :: ("V".data ++ [rbc])))))
      = .ok [("V".data, "x".data), ("W".data, "xxx".data)] := by
  constructor
  · unfold parse_content
    rw [show initState = (⟨[], none, [], dqc, 0⟩ : ScanState) from rfl]
    rw [chain_scan { defaultConfig with max_expansion_depth := d } rfl
      name n hv hexp hnd]
    rw [exceptBindOk]
    simp only []
    rw [if_pos (show ({ defaultConfig with max_expansion_depth := d
      } : ParserConfig).allow_expansion = true from rfl)]
    unfold expand_all
    rw [chainVars_keys]
    rw [expandKeys_chain { defaultConfig with max_expansion_depth := d }
      name n hnd hv (by rw [chainVars_keys]; exact hnd) (List.range (n + 1))
      (fun k hk => by have := List.mem_range.mp hk; omega)]
    by_cases hle : n ≤ d
    · rw [if_pos ?_, if_pos hle]
      intro k hk
      have := List.mem_range.mp hk
      show k < ({ defaultConfig with max_expansion_depth := d
        } : ParserConfig).max_expansion_depth + 1
      have hd : ({ defaultConfig with max_expansion_depth := d
        } : ParserConfig).max_expansion_depth = d := rfl
      omega
    · rw [if_neg ?_, if_neg hle]
      intro hcon
      have hn := hcon n (List.mem_range.mpr (by omega))
      have hd : ({ defaultConfig with max_expansion_depth := d
        } : ParserConfig).max_expansion_depth = d := rfl
      rw [hd] at hn
      omega
  · decide

/-- C6 witness: the chain V0=x, V1=${V0}, V2=${V1} under depth limit 1
hits the failing branch of the dichotomy. -/
theorem claim_C6_witness :
    parse_content { defaultConfig with max_expansion_depth := 1 }
        (chainContent chainNames 2)
      = (if 2 ≤ 1
         then .ok ((List.range (2 + 1)).map (fun k => (chainNames k, "x".data)))
         else .error (.ExpansionDepthExceeded 0 1)) :=
  (claim_C6 1 2 chainNames (by decide) (by decide) (by decide)).1
